import Mathlib

/-!
# Verification of the bitonic sorter (`src/simple_task/bitonic_sorter.cc`)

Shallow embedding of the Legion bitonic sorter.  Tasks are pure
functions (every `single_swap_task` launch is awaited before its result
is used, and futures carry `MyVec<int>` values), so each task is
embedded as a Lean function on `List Int`.  C `int` is embedded as
`Int`; the 32-bit representation is made explicit (`% 2^32`) exactly
where the C code depends on it: in the two's-complement `num_total &
(-num_total)` trick and in the byte-level codec.  Aborting assertions
and out-of-bounds vector reads are embedded as `Option.none`.
Recursions that are `while` loops in C carry an explicit fuel argument;
every use supplies enough fuel, which the lemmas below discharge.
-/

/-- `INT_MAX`, the padding sentinel. -/
def intMax : Int := 2 ^ 31 - 1

/-! ## Sequence codec (`MyVec<int>`: `legion_buffer_size`, `legion_serialize`,
`legion_deserialize`).  The byte layout is the one the C code produces on a
little-endian LP64 platform: `sizeof(size_t) = 8`, `sizeof(int) = 4`,
two's-complement ints.  Bytes are modelled as `Nat` values `< 256`. -/

/-- `sizeof(size_t)` plus `sizeof(int)` for each element
(`result = sizeof(size_t); for e in vec: result += sizeof(e)`). -/
def legion_buffer_size (s : List Int) : Nat :=
  s.foldl (fun acc _ => acc + 4) 8

/-- Little-endian byte string of length `k` for a natural number. -/
def natLE : Nat → Nat → List Nat
  | 0, _ => []
  | k + 1, n => n % 256 :: natLE k (n / 256)

/-- Little-endian byte string of a C `int` (two's complement, 4 bytes). -/
def intLE (x : Int) : List Nat :=
  natLE 4 (x.emod (2 ^ 32)).toNat

/-- Value of a little-endian byte string. -/
def leVal : List Nat → Nat
  | [] => 0
  | b :: bs => b + 256 * leVal bs

/-- Reads 4 little-endian bytes back as a C `int` (two's complement). -/
def intOfBytes (bs : List Nat) : Int :=
  if leVal bs < 2 ^ 31 then (leVal bs : Int) else (leVal bs : Int) - 2 ^ 32

/-- `legion_serialize`: the element count as a `size_t`, then each
element in order. -/
def legion_serialize (s : List Int) : List Nat :=
  natLE 8 s.length ++ s.flatMap intLE

/-- Reads `k` consecutive `int` slots. -/
def readInts : Nat → List Nat → List Int
  | 0, _ => []
  | k + 1, bs => intOfBytes (bs.take 4) :: readInts k (bs.drop 4)

/-- `legion_deserialize`: reads the count, then that many elements;
returns the reconstructed sequence and the number of bytes consumed
(`source - buffer`). -/
def legion_deserialize (bytes : List Nat) : List Int × Nat :=
  let n := leVal (bytes.take 8)
  (readInts n (bytes.drop 8), 8 + 4 * n)

/-! ## Command-line handling in `top_level_task`: any token whose first
character is `'-'` makes the loop skip that token and the next one
(`i++; continue;` inside a `for` that also increments `i`); every other
token goes through `atoi`. -/

/-- The characters C `isspace` accepts (the `"C"` locale). -/
def isSpaceChar (c : Char) : Bool :=
  c = ' ' || c = '\t' || c = '\n' || c = '\x0b' || c = '\x0c' || c = '\r'

/-- Value of a decimal digit string. -/
def digitsVal (cs : List Char) : Nat :=
  cs.foldl (fun acc c => 10 * acc + (c.toNat - 48)) 0

/-- C `atoi`: skip whitespace, read an optional sign and then a maximal
digit run; anything else (including an empty run) contributes 0. -/
def atoi (s : List Char) : Int :=
  match s.dropWhile isSpaceChar with
  | '-' :: u => -(digitsVal (u.takeWhile Char.isDigit) : Int)
  | '+' :: u => (digitsVal (u.takeWhile Char.isDigit) : Int)
  | u => (digitsVal (u.takeWhile Char.isDigit) : Int)

/-- `argv[i][0] == '-'`. -/
def isFlag : List Char → Bool
  | '-' :: _ => true
  | _ => false

/-- The input-collection loop of `top_level_task` (lines 91-99): a flag
token skips itself and the following token, every other token is pushed
through `atoi`. -/
def parseInputs : List (List Char) → List Int
  | [] => []
  | [a] => if isFlag a then [] else [atoi a]
  | a :: b :: rest =>
      if isFlag a then parseInputs rest else atoi a :: parseInputs (b :: rest)

/-! ## Padding normalizer (`top_level_task` lines 102-110). -/

/-- `num_total & (-num_total)` on a 32-bit two's-complement `int`,
computed on the unsigned representative: `-n` is `2^32 - n (mod 2^32)`. -/
def lowbit (n : Nat) : Nat :=
  n &&& ((2 ^ 32 - n) % 2 ^ 32)

/-- The `while (num_total != (num_total & (-num_total)))` loop, with
fuel; `padLen` supplies fuel `n`, which suffices (see `padLoop_eq_pow`). -/
def padLoop : Nat → Nat → Nat
  | 0, n => n
  | fuel + 1, n => if n = lowbit n then n else padLoop fuel (n + lowbit n)

/-- The padded total: `num_total` after the rounding-up loop. -/
def padLen (n : Nat) : Nat := padLoop n n

/-- The padded input: `nums` extended with `INT_MAX` sentinels up to
`padLen`. -/
def padInput (nums : List Int) : List Int :=
  nums ++ List.replicate (padLen nums.length - nums.length) intMax

/-! ## `single_swap_task` (lines 221-230). -/

/-- `single_swap_task`: asserts exactly two `int` arguments, returns
`{min, max}`. -/
def single_swap_task : List Int → Option (List Int)
  | [a, b] => some [min a b, max a b]
  | _ => none

/-! ## `subsorter_task` (lines 153-219). -/

/-- Cross phase (lines 175-186): slot `i` gets `min(vec1[i],
vec2[m-1-i])` and slot `2m-1-i` gets `max(vec1[i], vec2[m-1-i])`; as a
list this is `zipWith min vec1 (reverse vec2) ++ zipWith max (reverse
vec1) vec2`. -/
def crossPhase (l r : List Int) : List Int :=
  List.zipWith min l r.reverse ++ List.zipWith max l.reverse r

/-- One window of a half-clean round (lines 192-211 for a fixed `lo`):
for `i < half_sz` slot `lo+i` gets the min and slot `lo+i+half_sz` the
max of the pair at distance `half_sz`. -/
def halfcleanW (h : Nat) (w : List Int) : List Int :=
  List.zipWith min (w.take h) ((w.drop h).take h) ++
    List.zipWith max (w.take h) ((w.drop h).take h) ++ w.drop (2 * h)

/-- Splits a buffer into chunks of `g` (the windows `lo = 0, g, 2g, …`);
fuel is the buffer length. -/
def chunksF : Nat → Nat → List Int → List (List Int)
  | _, _, [] => []
  | 0, _, l => [l]
  | fuel + 1, g, x :: xs => (x :: xs).take g :: chunksF fuel g ((x :: xs).drop g)

/-- One round of the half-clean loop at window size `gap`. -/
def gapRound (g : Nat) (buf : List Int) : List Int :=
  ((chunksF buf.length g buf).map (halfcleanW (g / 2))).flatten

/-- The `for (int gap = num_vec; gap > 1; gap /= 2)` loop, with fuel. -/
def gapLoopF : Nat → Nat → List Int → List Int
  | 0, _, buf => buf
  | fuel + 1, g, buf => if 1 < g then gapLoopF fuel (g / 2) (gapRound g buf) else buf

/-- `subsorter_task`: asserts two futures of equal size, runs the cross
phase and then the half-clean rounds. -/
def subsorter_task (l r : List Int) : Option (List Int) :=
  if l.length = r.length then
    some (gapLoopF l.length l.length (crossPhase l r))
  else none

/-! ## Orchestration in `top_level_task` (lines 112-150). -/

/-- Adjacent pairing for round 0 (`for lo += 2`); `none` models the
out-of-bounds read of `nums[lo+1]` on an odd-length buffer. -/
def toPairs : List Int → Option (List (Int × Int))
  | [] => some []
  | [_] => none
  | a :: b :: rest => do
      let ps ← toPairs rest
      some ((a, b) :: ps)

/-- One merge round: consecutive results feed one `subsorter_task` each
(futures `j*2` and `j*2+1`); `none` models reading a missing future. -/
def pairUp : List (List Int) → Option (List (List Int))
  | [] => some []
  | [_] => none
  | a :: b :: rest => do
      let s ← subsorter_task a b
      let ss ← pairUp rest
      some (s :: ss)

/-- The `for (int gap = 4; gap <= num_total; gap <<= 1)` merge cascade,
with fuel (`top_level` supplies `total`, which suffices). -/
def mergeLoopF : Nat → Nat → Nat → List (List Int) → Option (List (List Int))
  | 0, _, _, results => some results
  | fuel + 1, gap, total, results =>
      if gap ≤ total then do
        let next ← pairUp results
        mergeLoopF fuel (gap * 2) total next
      else some results

/-- `top_level_task` from the collected inputs onward: assert a
non-empty input, pad, run round 0 of single swaps, run the merge
cascade, check the two final asserts, print the first `num_inputs`
slots.  `none` models an aborted run (failed assert or out-of-bounds
read). -/
def sortTop (nums : List Int) : Option (List Int) :=
  if nums.length = 0 then none
  else
    match toPairs (padInput nums) with
    | none => none
    | some pairs =>
        match mergeLoopF (padLen nums.length) 4 (padLen nums.length)
            (pairs.map fun p => [min p.1 p.2, max p.1 p.2]) with
        | none => none
        | some final =>
            match final with
            | [s] =>
                if s.length = padLen nums.length then some (s.take nums.length)
                else none
            | _ => none

/-- The whole `top_level_task`: command-line handling followed by the
sort. -/
def top_level_task (argv : List (List Char)) : Option (List Int) :=
  sortTop (parseInputs argv)

/-! ## Specification-side notions used by the claims. -/

/-- All elements of `a` are `≤` all elements of `b`. -/
def AllLe (a b : List Int) : Prop := ∀ x ∈ a, ∀ y ∈ b, x ≤ y

/-- A zero-one sequence (used for the 0-1-principle argument). -/
def ZO (l : List Int) : Prop := ∀ x ∈ l, x = 0 ∨ x = 1

/-- A zero-one sequence whose ones form one cyclic run: either
`0^x 1^y 0^z` or `1^x 0^y 1^z`.  This is what "bitonic" means for
zero-one sequences, and it is the shape the half-clean rounds preserve. -/
def CycBlock (w : List Int) : Prop :=
  (∃ x y z, w = List.replicate x 0 ++ List.replicate y 1 ++ List.replicate z 0) ∨
  (∃ x y z, w = List.replicate x 1 ++ List.replicate y 0 ++ List.replicate z 1)

/-- Monotonically non-decreasing then non-increasing. -/
def UpDown (l : List Int) : Prop :=
  ∃ p ∈ List.range (l.length + 1),
    List.Sorted (· ≤ ·) (l.take p) ∧ List.Sorted (· ≥ ·) (l.drop p)

/-- Bitonic: rises then falls, or vice versa, up to rotation (spec
glossary). -/
def Bitonic (l : List Int) : Prop :=
  ∃ t ∈ List.range (l.length + 1), UpDown (l.rotate t)

instance (l : List Int) : Decidable (UpDown l) := by
  unfold UpDown; infer_instance

instance (l : List Int) : Decidable (Bitonic l) := by
  unfold Bitonic; infer_instance

/-- Modelled from the spec: `nextPow2(N)`, "the smallest power of two
≥ N" (the spec's padding contract; the C code computes it by the
`lowbit` loop). -/
def nextPow2Spec (n : Nat) : Nat := 2 ^ Nat.clog 2 n

/-- Modelled from the spec: the CLI contract "any `-flag` token and its
one following argument are ignored (skipped as a pair)"; returns the
tokens that remain. -/
def specKeptTokens : List (List Char) → List (List Char)
  | [] => []
  | t :: rest =>
      if isFlag t then specKeptTokens rest.tail else t :: specKeptTokens rest
termination_by l => l.length
decreasing_by
  · simp only [List.length_cons, List.length_tail]
    omega
  · simp

/-! ## Analysis of `lowbit` and the padding loop. -/

/-- Reference form of the lowest set bit, by recursion on parity. -/
def lowRec (n : Nat) : Nat :=
  if h : n = 0 then 0
  else if n % 2 = 1 then 1 else 2 * lowRec (n / 2)
termination_by n
decreasing_by exact Nat.div_lt_self (Nat.pos_of_ne_zero h) Nat.one_lt_two

theorem and_decomp (a b : Nat) :
    a &&& b = 2 * (a / 2 &&& b / 2) + (a &&& b) % 2 := by
  conv_lhs => rw [← Nat.div_add_mod (a &&& b) 2]
  rw [Nat.and_div_two]

theorem and_compl_self (v : Nat) :
    ∀ q, q ≤ 2 ^ v - 1 → q &&& (2 ^ v - 1 - q) = 0 := by
  induction v with
  | zero =>
      intro q hq
      have hq0 : q = 0 := by omega
      subst hq0
      rfl
  | succ v ih =>
      intro q hq
      have hv : 0 < 2 ^ v := Nat.pos_pow_of_pos v (by norm_num)
      have hpow : 2 ^ (v + 1) = 2 * 2 ^ v := by ring
      rw [and_decomp]
      have hq2 : q / 2 ≤ 2 ^ v - 1 := by omega
      have hdiv : (2 ^ (v + 1) - 1 - q) / 2 = 2 ^ v - 1 - q / 2 := by omega
      have hmod : (q &&& (2 ^ (v + 1) - 1 - q)) % 2 = 0 := by
        rcases Nat.mod_two_eq_zero_or_one (q &&& (2 ^ (v + 1) - 1 - q)) with h | h
        · exact h
        · exfalso
          rcases Nat.and_mod_two_eq_one.mp h with ⟨h1, h2⟩
          omega
      rw [hdiv, hmod, ih _ hq2]

theorem and_neg_eq_lowRec :
    ∀ n, 0 < n → ∀ w, n < 2 ^ w → n &&& (2 ^ w - n) = lowRec n := by
  intro n
  induction n using Nat.strong_induction_on with
  | _ n ih =>
      intro hn w hw
      have hw1 : 1 ≤ w := by
        by_contra h
        push_neg at h
        interval_cases w
        omega
      have hpow : 2 ^ w = 2 * 2 ^ (w - 1) := by
        rw [← pow_succ']
        congr 1
        omega
      rcases Nat.mod_two_eq_zero_or_one n with he | ho
      · -- n even: peel one factor of two off both operands
        have h2 : 2 ≤ n := by omega
        have hrec : lowRec n = 2 * lowRec (n / 2) := by
          rw [lowRec]
          simp only [he]
          split
          · omega
          · simp
        have hdiv : (2 ^ w - n) / 2 = 2 ^ (w - 1) - n / 2 := by omega
        have hmod : (n &&& (2 ^ w - n)) % 2 = 0 := by
          rcases Nat.mod_two_eq_zero_or_one (n &&& (2 ^ w - n)) with h | h
          · exact h
          · exact absurd (Nat.and_mod_two_eq_one.mp h).1 (by omega)
        rw [and_decomp, hdiv, hmod, hrec,
          ih (n / 2) (by omega) (by omega) (w - 1) (by omega)]
        omega
      · -- n odd: the low bit survives, higher bits are complementary
        have hrec : lowRec n = 1 := by
          rw [lowRec]
          simp only [ho]
          split
          · omega
          · simp
        have hmod : (n &&& (2 ^ w - n)) % 2 = 1 :=
          Nat.and_mod_two_eq_one.mpr ⟨ho, by omega⟩
        have hdiv : (2 ^ w - n) / 2 = 2 ^ (w - 1) - 1 - n / 2 := by omega
        have hhi : n / 2 &&& (2 ^ (w - 1) - 1 - n / 2) = 0 :=
          and_compl_self (w - 1) (n / 2) (by omega)
        rw [and_decomp, hdiv, hhi, hmod, hrec]

theorem lowbit_eq_lowRec {n : Nat} (hn : 0 < n) (hw : n < 2 ^ 32) :
    lowbit n = lowRec n := by
  have h1 : (2 ^ 32 - n) % 2 ^ 32 = 2 ^ 32 - n := Nat.mod_eq_of_lt (by omega)
  rw [lowbit, h1, and_neg_eq_lowRec n hn 32 hw]

theorem lowRec_pow (n : Nat) (hn : 0 < n) : ∃ k, lowRec n = 2 ^ k := by
  induction n using Nat.strong_induction_on with
  | _ n ih =>
      rw [lowRec]
      split
      · omega
      · split
        · exact ⟨0, rfl⟩
        · rename_i h0 _
          obtain ⟨k, hk⟩ :=
            ih (n / 2) (Nat.div_lt_self (Nat.pos_of_ne_zero h0) Nat.one_lt_two)
              (by omega)
          exact ⟨k + 1, by rw [hk]; ring⟩

theorem lowRec_dvd (n : Nat) : lowRec n ∣ n := by
  induction n using Nat.strong_induction_on with
  | _ n ih =>
      rw [lowRec]
      split
      · simp_all
      · split
        · exact one_dvd n
        · rename_i h0 he
          have h2 : 2 ∣ n := by omega
          obtain ⟨m, hm⟩ := h2
          have := ih (n / 2) (Nat.div_lt_self (Nat.pos_of_ne_zero h0) Nat.one_lt_two)
          rw [hm] at this ⊢
          rw [Nat.mul_div_cancel_left m (by norm_num)] at this ⊢
          exact Nat.mul_dvd_mul_left 2 this

theorem lowRec_pos {n : Nat} (hn : 0 < n) : 0 < lowRec n := by
  obtain ⟨k, hk⟩ := lowRec_pow n hn
  rw [hk]
  exact Nat.pos_pow_of_pos k (by norm_num)

theorem lowRec_two_pow (k : Nat) : lowRec (2 ^ k) = 2 ^ k := by
  induction k with
  | zero => rw [lowRec]; norm_num
  | succ k ih =>
      have h1 : 2 ^ (k + 1) = 2 * 2 ^ k := by ring
      have h2 : (2 : Nat) ^ (k + 1) ≠ 0 := by positivity
      have h3 : ¬ 2 ^ (k + 1) % 2 = 1 := by omega
      have h4 : 2 ^ (k + 1) / 2 = 2 ^ k := by omega
      rw [lowRec, dif_neg h2, if_neg h3, h4, ih, h1]

theorem lowRec_eq_self_iff {n : Nat} (hn : 0 < n) :
    lowRec n = n ↔ ∃ k, n = 2 ^ k := by
  constructor
  · intro h
    obtain ⟨k, hk⟩ := lowRec_pow n hn
    exact ⟨k, by rw [← h, hk]⟩
  · rintro ⟨k, rfl⟩
    exact lowRec_two_pow k

/-- The rounding-up loop reaches exactly the smallest power of two that
is `≥` its starting value (for inputs in `int` range, given enough fuel). -/
theorem padLoop_eq_pow :
    ∀ fuel n, 0 < n → n ≤ 2 ^ 31 → 2 ^ Nat.clog 2 n - n ≤ fuel →
      padLoop fuel n = 2 ^ Nat.clog 2 n := by
  intro fuel
  induction fuel with
  | zero =>
      intro n hn hr hf
      have hle : n ≤ 2 ^ Nat.clog 2 n := Nat.le_pow_clog (by norm_num) n
      have heq : n = 2 ^ Nat.clog 2 n := by omega
      simp only [padLoop]
      omega
  | succ fuel ih =>
      intro n hn hr hf
      have hlt : n < 2 ^ 32 := by
        have : (2 : Nat) ^ 31 < 2 ^ 32 := by norm_num
        omega
      have hle : n ≤ 2 ^ Nat.clog 2 n := Nat.le_pow_clog (by norm_num) n
      have hlow : lowbit n = lowRec n := lowbit_eq_lowRec hn hlt
      simp only [padLoop, hlow]
      by_cases hp : n = lowRec n
      · simp [← hp]
        obtain ⟨k, hk⟩ := lowRec_pow n hn
        have : n = 2 ^ k := by omega
        rw [this, Nat.clog_pow 2 k (by norm_num)]
      · simp only [hp, if_false]
        -- n is not a power of two; step strictly towards 2 ^ clog
        obtain ⟨k, hk⟩ := lowRec_pow n hn
        have hdvd : lowRec n ∣ n := lowRec_dvd n
        have hpos : 0 < lowRec n := lowRec_pos hn
        have hnpow : n ≠ 2 ^ Nat.clog 2 n := by
          intro hcon
          exact hp (by rw [hcon, lowRec_two_pow])
        have hnlt : n < 2 ^ Nat.clog 2 n := by omega
        have hkle : k ≤ Nat.clog 2 n := by
          have h1 : 2 ^ k ≤ n := by
            rw [← hk]
            exact Nat.le_of_dvd hn hdvd
          have h2 : 2 ^ k < 2 ^ Nat.clog 2 n := by omega
          exact (Nat.pow_lt_pow_iff_right (by norm_num)).mp h2 |>.le
        have hdvd2 : 2 ^ k ∣ 2 ^ Nat.clog 2 n := pow_dvd_pow 2 hkle
        have hstep : n + lowRec n ≤ 2 ^ Nat.clog 2 n := by
          rw [hk]
          obtain ⟨a, ha⟩ : 2 ^ k ∣ n := by rw [← hk]; exact hdvd
          obtain ⟨b, hb⟩ := hdvd2
          have hab : a < b := by
            by_contra hab
            push_neg at hab
            have : 2 ^ k * b ≤ 2 ^ k * a := Nat.mul_le_mul_left _ hab
            omega
          calc n + 2 ^ k = 2 ^ k * (a + 1) := by rw [ha]; ring
            _ ≤ 2 ^ k * b := Nat.mul_le_mul_left _ hab
            _ = 2 ^ Nat.clog 2 n := hb.symm
        have hclog : Nat.clog 2 (n + lowRec n) = Nat.clog 2 n := by
          apply le_antisymm
          · exact (Nat.le_pow_iff_clog_le (by norm_num)).mp hstep
          · exact Nat.clog_mono_right 2 (by omega)
        rw [ih (n + lowRec n) (by omega) (by
              have h31 : 2 ^ Nat.clog 2 n ≤ 2 ^ 31 := by
                have := (Nat.le_pow_iff_clog_le (b := 2) (by norm_num)
                  (x := n) (y := 31)).mp (by omega)
                exact Nat.pow_le_pow_right (by norm_num) this
              omega)
            (by rw [hclog]; omega), hclog]

/-- `padLen` is the smallest power of two `≥ n` (for `n` in `int` range). -/
theorem padLen_eq_pow {n : Nat} (hn : 0 < n) (hr : n ≤ 2 ^ 31) :
    padLen n = 2 ^ Nat.clog 2 n := by
  apply padLoop_eq_pow n n hn hr
  rcases Nat.lt_or_ge n 2 with h | h
  · interval_cases n
    simp
  · have h1 : 2 ^ (Nat.clog 2 n - 1) < n := Nat.pow_pred_clog_lt_self (by norm_num) h
    have h2 : 0 < Nat.clog 2 n := Nat.clog_pos (by norm_num) h
    have h3 : 2 ^ Nat.clog 2 n = 2 * 2 ^ (Nat.clog 2 n - 1) := by
      rw [← pow_succ']
      congr 1
      omega
    omega

theorem padLen_ge {n : Nat} (hn : 0 < n) (hr : n ≤ 2 ^ 31) : n ≤ padLen n := by
  rw [padLen_eq_pow hn hr]
  exact Nat.le_pow_clog (by norm_num) n

theorem padLen_le_pow {n j : Nat} (hn : 0 < n) (hr : n ≤ 2 ^ 31)
    (h : n ≤ 2 ^ j) : padLen n ≤ 2 ^ j := by
  rw [padLen_eq_pow hn hr]
  exact Nat.pow_le_pow_right (by norm_num)
    ((Nat.le_pow_iff_clog_le (by norm_num)).mp h)

theorem padLen_pow_self {k : Nat} (hk : 2 ^ k ≤ 2 ^ 31) :
    padLen (2 ^ k) = 2 ^ k := by
  rw [padLen_eq_pow (by positivity) hk, Nat.clog_pow 2 k (by norm_num)]

/-! ## Codec lemmas. -/

theorem natLE_length : ∀ k n, (natLE k n).length = k := by
  intro k
  induction k with
  | zero => intro n; rfl
  | succ k ih => intro n; simp [natLE, ih]

theorem leVal_natLE : ∀ k n, leVal (natLE k n) = n % 256 ^ k := by
  intro k
  induction k with
  | zero => intro n; simp [natLE, leVal, Nat.mod_one]
  | succ k ih =>
      intro n
      rw [natLE, leVal, ih, pow_succ']
      exact (Nat.mod_mul).symm

theorem intLE_length (x : Int) : (intLE x).length = 4 := natLE_length 4 _

theorem intOfBytes_intLE {x : Int} (hlo : -2 ^ 31 ≤ x) (hhi : x < 2 ^ 31) :
    intOfBytes (intLE x) = x := by
  have h256 : (256 : Nat) ^ 4 = 2 ^ 32 := by norm_num
  rcases le_or_lt 0 x with hx | hx
  · have hmod : x.emod (2 ^ 32) = x :=
      Int.emod_eq_of_lt hx (by omega)
    have hval : leVal (intLE x) = x.toNat := by
      rw [intLE, leVal_natLE, h256, hmod]
      exact Nat.mod_eq_of_lt (by omega)
    have hsmall : x.toNat < 2 ^ 31 := by omega
    rw [intOfBytes, hval, if_pos hsmall]
    omega
  · have hshift : x.emod (2 ^ 32) = x + 2 ^ 32 := by
      have hemod : x.emod (2 ^ 32) = x % (2 ^ 32) := rfl
      have h1 : (x + 2 ^ 32) % (2 ^ 32 : Int) = x % 2 ^ 32 := by
        have h := Int.add_mul_emod_self_left (a := x) (b := 2 ^ 32) (c := 1)
        simp only [mul_one] at h
        exact h
      have h2 : (x + 2 ^ 32) % (2 ^ 32 : Int) = x + 2 ^ 32 :=
        Int.emod_eq_of_lt (by omega) (by omega)
      rw [hemod]
      omega
    have hval : leVal (intLE x) = (x + 2 ^ 32).toNat := by
      rw [intLE, leVal_natLE, h256, hshift]
      exact Nat.mod_eq_of_lt (by omega)
    have hbig : ¬ (x + 2 ^ 32).toNat < 2 ^ 31 := by omega
    rw [intOfBytes, hval, if_neg hbig]
    omega

theorem flatMap_intLE_length (s : List Int) :
    (s.flatMap intLE).length = 4 * s.length := by
  induction s with
  | nil => rfl
  | cons x s ih => simp [List.flatMap_cons, ih, intLE_length]; ring

theorem readInts_flatMap :
    ∀ s : List Int, (∀ x ∈ s, -2 ^ 31 ≤ x ∧ x < 2 ^ 31) →
      readInts s.length (s.flatMap intLE) = s := by
  intro s
  induction s with
  | nil => intro _; rfl
  | cons x s ih =>
      intro hr
      have hx := hr x (by simp)
      have hlen : (intLE x).length = 4 := intLE_length x
      rw [List.length_cons, List.flatMap_cons, readInts,
        List.take_append_of_le_length (by omega),
        List.drop_append_of_le_length (by omega)]
      have ht : (intLE x).take 4 = intLE x := List.take_of_length_le (by omega)
      have hd : (intLE x).drop 4 = [] := List.drop_eq_nil_of_le (by omega)
      rw [ht, hd, List.nil_append, intOfBytes_intLE hx.1 hx.2,
        ih (fun y hy => hr y (by simp [hy]))]

theorem legion_buffer_size_eq (s : List Int) :
    legion_buffer_size s = 8 + 4 * s.length := by
  have h : ∀ (l : List Int) (a : Nat),
      l.foldl (fun acc _ => acc + 4) a = a + 4 * l.length := by
    intro l
    induction l with
    | nil => intro a; simp
    | cons x l ih => intro a; simp [ih]; ring
  exact h s 8

/-- Full codec round trip: deserializing a serialized sequence restores
the sequence and consumes exactly the serialized byte count. -/
theorem deserialize_serialize (s : List Int)
    (hr : ∀ x ∈ s, -2 ^ 31 ≤ x ∧ x < 2 ^ 31) (hlen : s.length < 2 ^ 64) :
    legion_deserialize (legion_serialize s) = (s, legion_buffer_size s) := by
  have hnl : (natLE 8 s.length).length = 8 := natLE_length 8 _
  have htake : (legion_serialize s).take 8 = natLE 8 s.length := by
    rw [legion_serialize, List.take_append_of_le_length (by omega)]
    exact List.take_of_length_le (by omega)
  have hdrop : (legion_serialize s).drop 8 = s.flatMap intLE := by
    rw [legion_serialize, List.drop_append_of_le_length (by omega),
      List.drop_eq_nil_of_le (by omega), List.nil_append]
  have hval : leVal ((legion_serialize s).take 8) = s.length := by
    rw [htake, leVal_natLE]
    have h8 : (256 : Nat) ^ 8 = 2 ^ 64 := by norm_num
    rw [h8]
    exact Nat.mod_eq_of_lt hlen
  rw [legion_deserialize, hval, hdrop, readInts_flatMap s hr,
    legion_buffer_size_eq]

/-! ## Permutation facts about the compare-exchange phases. -/

theorem zipWith_reverse_eq (f : Int → Int → Int) :
    ∀ (a b : List Int), a.length = b.length →
      (List.zipWith f a b).reverse = List.zipWith f a.reverse b.reverse := by
  intro a
  induction a with
  | nil => intro b hb; simp
  | cons x a ih =>
      intro b hb
      cases b with
      | nil => simp at hb
      | cons y b =>
          have hlen : a.length = b.length := by simpa using hb
          simp only [List.zipWith_cons_cons, List.reverse_cons, ih b hlen]
          rw [List.zipWith_append _ _ _ _ _ (by simp [hlen])]
          rfl

theorem minmax_cons_perm (x y : Int) (t : List Int) :
    List.Perm (min x y :: max x y :: t) (x :: y :: t) := by
  rcases le_total x y with h | h
  · rw [min_eq_left h, max_eq_right h]
  · rw [min_eq_right h, max_eq_left h]
    exact List.Perm.swap x y t

theorem zip_minmax_perm :
    ∀ (a b : List Int), a.length = b.length →
      List.Perm (List.zipWith min a b ++ List.zipWith max a b) (a ++ b) := by
  intro a
  induction a with
  | nil =>
      intro b hb
      have : b = [] := List.eq_nil_of_length_eq_zero (by simpa using hb.symm)
      subst this
      rfl
  | cons x a ih =>
      intro b hb
      cases b with
      | nil => simp at hb
      | cons y b =>
          have hlen : a.length = b.length := by simpa using hb
          simp only [List.zipWith_cons_cons, List.cons_append]
          refine List.Perm.trans (List.Perm.cons _ List.perm_middle) ?_
          refine List.Perm.trans (((ih b hlen).cons _).cons _) ?_
          refine List.Perm.trans (minmax_cons_perm x y (a ++ b)) ?_
          exact List.Perm.cons _ List.perm_middle.symm

/-- The cross phase permutes the concatenation of its two inputs. -/
theorem crossPhase_perm (l r : List Int) (h : l.length = r.length) :
    List.Perm (crossPhase l r) (l ++ r) := by
  have hmax : List.zipWith max l.reverse r =
      (List.zipWith max l r.reverse).reverse := by
    have := zipWith_reverse_eq max l r.reverse (by simpa using h)
    rw [this, List.reverse_reverse]
  rw [crossPhase, hmax]
  refine List.Perm.trans (List.Perm.append_left _ (List.reverse_perm _)) ?_
  refine List.Perm.trans (zip_minmax_perm l r.reverse (by simpa using h)) ?_
  exact List.Perm.append_left _ (List.reverse_perm r)

/-- One half-clean window permutes its contents (whenever the window is
long enough for the compared slots to exist, as in every reachable call). -/
theorem halfcleanW_perm (h : Nat) (w : List Int) (hw : 2 * h ≤ w.length) :
    List.Perm (halfcleanW h w) w := by
  have hA : (w.take h).length = h := by simp; omega
  have hB : ((w.drop h).take h).length = h := by simp; omega
  have hsplit : w.take h ++ ((w.drop h).take h ++ w.drop (2 * h)) = w := by
    have h1 : (w.drop h).drop h = w.drop (2 * h) := by
      rw [List.drop_drop]
      congr 1
      omega
    rw [← h1, List.take_append_drop, List.take_append_drop]
  rw [halfcleanW]
  refine List.Perm.trans
    (List.Perm.append_right _ (zip_minmax_perm _ _ (by rw [hA, hB]))) ?_
  rw [List.append_assoc, hsplit]

theorem zipWith_min_mem (a b : List Int) :
    ∀ x ∈ List.zipWith min a b, x ∈ a ∨ x ∈ b := by
  induction a generalizing b with
  | nil => simp
  | cons u a ih =>
      cases b with
      | nil => simp
      | cons v b =>
          intro x hx
          rcases List.mem_cons.mp hx with hx | hx
          · rcases le_total u v with h | h
            · exact Or.inl (by rw [hx, min_eq_left h]; simp)
            · exact Or.inr (by rw [hx, min_eq_right h]; simp)
          · rcases ih b x hx with h | h
            · exact Or.inl (List.mem_cons_of_mem _ h)
            · exact Or.inr (List.mem_cons_of_mem _ h)

theorem zipWith_max_mem (a b : List Int) :
    ∀ x ∈ List.zipWith max a b, x ∈ a ∨ x ∈ b := by
  induction a generalizing b with
  | nil => simp
  | cons u a ih =>
      cases b with
      | nil => simp
      | cons v b =>
          intro x hx
          rcases List.mem_cons.mp hx with hx | hx
          · rcases le_total u v with h | h
            · exact Or.inr (by rw [hx, max_eq_right h]; simp)
            · exact Or.inl (by rw [hx, max_eq_left h]; simp)
          · rcases ih b x hx with h | h
            · exact Or.inl (List.mem_cons_of_mem _ h)
            · exact Or.inr (List.mem_cons_of_mem _ h)

/-- Every element of a half-cleaned window comes from the window. -/
theorem halfcleanW_mem (h : Nat) (w : List Int) :
    ∀ x ∈ halfcleanW h w, x ∈ w := by
  intro x hx
  rw [halfcleanW] at hx
  have htk : ∀ y ∈ w.take h, y ∈ w := fun y hy => List.mem_of_mem_take hy
  have hdk : ∀ y ∈ (w.drop h).take h, y ∈ w := fun y hy =>
    List.mem_of_mem_drop (List.mem_of_mem_take hy)
  rcases List.mem_append.mp hx with hx | hx
  · rcases List.mem_append.mp hx with hx | hx
    · rcases zipWith_min_mem _ _ x hx with h' | h'
      · exact htk x h'
      · exact hdk x h'
    · rcases zipWith_max_mem _ _ x hx with h' | h'
      · exact htk x h'
      · exact hdk x h'
  · exact List.mem_of_mem_drop hx

/-! ## Chunking lemmas. -/

theorem chunksF_nil (fuel g : Nat) : chunksF fuel g [] = [] := by
  cases fuel with
  | zero => rfl
  | succ fuel => rfl

theorem chunksF_join :
    ∀ (bs : List (List Int)) (fuel g : Nat), 0 < g →
      (∀ b ∈ bs, b.length = g) → (bs.flatten).length ≤ fuel →
      chunksF fuel g bs.flatten = bs := by
  intro bs
  induction bs with
  | nil => intro fuel g _ _ _; exact chunksF_nil fuel g
  | cons b bs ih =>
      intro fuel g hg hlen hfuel
      have hb : b.length = g := hlen b (by simp)
      obtain ⟨x, xs, rfl⟩ : ∃ x xs, b = x :: xs := by
        cases b with
        | nil => simp at hb; omega
        | cons x xs => exact ⟨x, xs, rfl⟩
      have hflat : ((x :: xs) :: bs).flatten = x :: (xs ++ bs.flatten) := by
        simp
      cases fuel with
      | zero =>
          exfalso
          rw [hflat] at hfuel
          simp at hfuel
      | succ fuel =>
          rw [hflat]
          rw [chunksF]
          have hxb : (x :: (xs ++ bs.flatten)) = (x :: xs) ++ bs.flatten := by simp
          rw [hxb, List.take_left' hb, List.drop_left' hb]
          have hrec : bs.flatten.length ≤ fuel := by
            rw [hflat] at hfuel
            simp only [List.length_cons, List.length_append] at hfuel
            omega
          rw [ih fuel g hg (fun c hc => hlen c (by simp [hc])) hrec]

theorem chunksF_flatten :
    ∀ (fuel g : Nat) (l : List Int), l.length ≤ fuel → 0 < g →
      (chunksF fuel g l).flatten = l := by
  intro fuel
  induction fuel with
  | zero =>
      intro g l hl _
      have : l = [] := List.eq_nil_of_length_eq_zero (by omega)
      subst this
      rfl
  | succ fuel ih =>
      intro g l hl hg
      cases l with
      | nil => rfl
      | cons x xs =>
          rw [chunksF]
          simp only [List.flatten_cons]
          rw [ih g _ (by
              simp only [List.length_drop, List.length_cons]
              simp only [List.length_cons] at hl
              omega) hg,
            List.take_append_drop]

theorem chunksF_mem_length :
    ∀ (fuel g : Nat) (l : List Int), l.length ≤ fuel → 0 < g →
      g ∣ l.length → ∀ b ∈ chunksF fuel g l, b.length = g := by
  intro fuel
  induction fuel with
  | zero =>
      intro g l hl _ _ b hb
      have : l = [] := List.eq_nil_of_length_eq_zero (by omega)
      subst this
      simp [chunksF_nil] at hb
  | succ fuel ih =>
      intro g l hl hg hdvd b hb
      cases l with
      | nil => simp [chunksF_nil] at hb
      | cons x xs =>
          rw [chunksF] at hb
          have hcons : (x :: xs).length = xs.length + 1 := rfl
          have hlg : g ≤ (x :: xs).length := Nat.le_of_dvd (by simp) hdvd
          rcases List.mem_cons.mp hb with hb | hb
          · rw [hb]
            simp
            omega
          · refine ih g _ ?_ hg ?_ b hb
            · simp only [List.length_drop]
              omega
            · simp only [List.length_drop]
              exact Nat.dvd_sub' hdvd dvd_rfl

/-! ## `gapRound` and `gapLoopF` permutation facts. -/

theorem gapRound_perm (g : Nat) (buf : List Int) (hg : 0 < g)
    (hdvd : g ∣ buf.length) : List.Perm (gapRound g buf) buf := by
  rw [gapRound]
  have hflat := chunksF_flatten buf.length g buf le_rfl hg
  have hmem := chunksF_mem_length buf.length g buf le_rfl hg hdvd
  conv_rhs => rw [← hflat]
  generalize hc : chunksF buf.length g buf = cs at hmem ⊢
  clear hc hflat hdvd
  induction cs with
  | nil => rfl
  | cons c cs ih =>
      simp only [List.map_cons, List.flatten_cons]
      have h1 : List.Perm (halfcleanW (g / 2) c) c :=
        halfcleanW_perm _ _ (by
          have := hmem c (by simp)
          omega)
      exact List.Perm.append h1 (ih (fun b hb => hmem b (by simp [hb])))

theorem pow_div_two {k : Nat} (hk : 0 < k) : 2 ^ k / 2 = 2 ^ (k - 1) := by
  have h1 : 2 ^ k = 2 * 2 ^ (k - 1) := by
    rw [← pow_succ']
    congr 1
    omega
  omega

theorem gapLoopF_perm :
    ∀ (fuel k : Nat) (buf : List Int), 2 ^ k ∣ buf.length →
      List.Perm (gapLoopF fuel (2 ^ k) buf) buf := by
  intro fuel
  induction fuel with
  | zero => intro k buf _; rfl
  | succ fuel ih =>
      intro k buf hdvd
      rw [gapLoopF]
      by_cases hk : 1 < 2 ^ k
      · rw [if_pos hk]
        have hk0 : 0 < k := by
          by_contra h
          push_neg at h
          interval_cases k
          omega
        rw [pow_div_two hk0]
        have hperm : List.Perm (gapRound (2 ^ k) buf) buf :=
          gapRound_perm _ _ (by positivity) hdvd
        have hdvd2 : 2 ^ (k - 1) ∣ (gapRound (2 ^ k) buf).length := by
          rw [hperm.length_eq]
          exact dvd_trans (pow_dvd_pow 2 (by omega)) hdvd
        exact (ih (k - 1) _ hdvd2).trans hperm
      · rw [if_neg hk]

/-! ## Zero-one analysis of a half-clean window.

For zero-one buffers every window that is a `CycBlock` is half-cleaned
into two `CycBlock` halves, the lower one dominated by the upper one.
This is the heart of the bitonic-merge correctness argument; it is
transferred to arbitrary integers by the 0-1 principle further below. -/

theorem rep_merge_assoc (a : Int) (i j : Nat) (T : List Int) :
    List.replicate i a ++ (List.replicate j a ++ T) =
      List.replicate (i + j) a ++ T := by
  rw [← List.append_assoc, ← List.replicate_add]

theorem rep_merge_tail (a : Int) (i j : Nat) :
    List.replicate i a ++ List.replicate j a = List.replicate (i + j) a := by
  rw [← List.replicate_add]

theorem runs3_congr (a b c : Int) {i i' j j' k k' : Nat}
    (h1 : i = i') (h2 : j = j') (h3 : k = k') :
    List.replicate i a ++ (List.replicate j b ++ List.replicate k c) =
      List.replicate i' a ++ (List.replicate j' b ++ List.replicate k' c) := by
  rw [h1, h2, h3]

theorem mem_runs3 {a b c v : Int} {p q r : Nat}
    (hv : v ∈ List.replicate p a ++ List.replicate q b ++ List.replicate r c) :
    v = a ∨ v = b ∨ v = c := by
  rcases List.mem_append.mp hv with h | h
  · rcases List.mem_append.mp h with h | h
    · exact Or.inl (List.eq_of_mem_replicate h)
    · exact Or.inr (Or.inl (List.eq_of_mem_replicate h))
  · exact Or.inr (Or.inr (List.eq_of_mem_replicate h))

theorem allLe_of_bounds {L U : List Int} (c : Int)
    (hL : ∀ u ∈ L, u ≤ c) (hU : ∀ v ∈ U, c ≤ v) : AllLe L U :=
  fun u hu v hv => le_trans (hL u hu) (hU v hv)

theorem cycBlock_zero_runs (p q r : Nat) :
    CycBlock (List.replicate p (0 : Int) ++ List.replicate q 0 ++
      List.replicate r 0) := by
  refine Or.inl ⟨p + q + r, 0, 0, ?_⟩
  simp only [List.replicate_zero, List.append_nil, List.append_assoc,
    rep_merge_assoc, rep_merge_tail]

theorem cycBlock_one_runs (p q r : Nat) :
    CycBlock (List.replicate p (1 : Int) ++ List.replicate q 1 ++
      List.replicate r 1) := by
  refine Or.inr ⟨p + q + r, 0, 0, ?_⟩
  simp only [List.replicate_zero, List.append_nil, List.append_assoc,
    rep_merge_assoc, rep_merge_tail]

theorem cycBlock_zo {w : List Int} (hw : CycBlock w) : ZO w := by
  rcases hw with ⟨x, y, z, rfl⟩ | ⟨x, y, z, rfl⟩
  · intro v hv
    rcases mem_runs3 hv with h | h | h
    · exact Or.inl h
    · exact Or.inr h
    · exact Or.inl h
  · intro v hv
    rcases mem_runs3 hv with h | h | h
    · exact Or.inr h
    · exact Or.inl h
    · exact Or.inr h

theorem zipWith_runs3 (f : Int → Int → Int) (p q r : Nat)
    (a₁ a₂ a₃ b₁ b₂ b₃ : Int) :
    List.zipWith f
        (List.replicate p a₁ ++ List.replicate q a₂ ++ List.replicate r a₃)
        (List.replicate p b₁ ++ List.replicate q b₂ ++ List.replicate r b₃) =
      List.replicate p (f a₁ b₁) ++ List.replicate q (f a₂ b₂) ++
        List.replicate r (f a₃ b₃) := by
  rw [List.zipWith_append _ _ _ _ _ (by simp),
    List.zipWith_append _ _ _ _ _ (by simp),
    List.zipWith_replicate', List.zipWith_replicate', List.zipWith_replicate']

/-- A half-clean window applied to two aligned three-run halves. -/
theorem halfcleanW_runs (h p q r : Nat) (hpqr : p + q + r = h)
    (a₁ a₂ a₃ b₁ b₂ b₃ : Int) :
    halfcleanW h
        ((List.replicate p a₁ ++ List.replicate q a₂ ++ List.replicate r a₃) ++
          (List.replicate p b₁ ++ List.replicate q b₂ ++ List.replicate r b₃)) =
      (List.replicate p (min a₁ b₁) ++ List.replicate q (min a₂ b₂) ++
          List.replicate r (min a₃ b₃)) ++
        (List.replicate p (max a₁ b₁) ++ List.replicate q (max a₂ b₂) ++
          List.replicate r (max a₃ b₃)) := by
  have hA : (List.replicate p a₁ ++ List.replicate q a₂ ++
      List.replicate r a₃).length = h := by simp; omega
  have hB : (List.replicate p b₁ ++ List.replicate q b₂ ++
      List.replicate r b₃).length = h := by simp; omega
  rw [halfcleanW, List.take_left' hA, List.drop_left' hA,
    List.take_of_length_le (by rw [hB]),
    List.drop_eq_nil_of_le (by simp; omega), List.append_nil,
    zipWith_runs3, zipWith_runs3]

theorem min_zero_one : min (0 : Int) 1 = 0 := by norm_num
theorem min_one_zero : min (1 : Int) 0 = 0 := by norm_num
theorem max_zero_one : max (0 : Int) 1 = 1 := by norm_num
theorem max_one_zero : max (1 : Int) 0 = 1 := by norm_num

/-- Half-cleaning a `CycBlock` window of length `2h` yields two
`CycBlock` halves of length `h` with the lower half dominated by the
upper half. -/
theorem halfcleanW_cycBlock (h : Nat) (w : List Int)
    (hw : w.length = 2 * h) (hblk : CycBlock w) :
    ∃ L U, halfcleanW h w = L ++ U ∧ L.length = h ∧ U.length = h ∧
      CycBlock L ∧ CycBlock U ∧ AllLe L U := by
  rcases hblk with ⟨x, y, z, rfl⟩ | ⟨x, y, z, rfl⟩
  · -- window `0^x 1^y 0^z`
    have hsum : x + y + z = 2 * h := by
      simp only [List.length_append, List.length_replicate] at hw
      omega
    by_cases h1 : h ≤ x
    · -- the ones sit entirely in the upper half
      have hw' : List.replicate x (0 : Int) ++ List.replicate y 1 ++
            List.replicate z 0 =
          (List.replicate (x - h) 0 ++ List.replicate y 0 ++
            List.replicate z 0) ++
          (List.replicate (x - h) 0 ++ List.replicate y 1 ++
            List.replicate z 0) := by
        simp only [List.append_assoc, rep_merge_assoc, rep_merge_tail]
        exact runs3_congr 0 1 0 (by omega) rfl rfl
      rw [hw', halfcleanW_runs h (x - h) y z (by omega),
        min_self, min_zero_one, max_self, max_zero_one]
      refine ⟨_, _, rfl, by simp; omega, by simp; omega,
        cycBlock_zero_runs _ _ _, Or.inl ⟨_, _, _, rfl⟩, ?_⟩
      refine allLe_of_bounds 0 ?_ ?_
      · intro u hu
        rcases mem_runs3 hu with h' | h' | h' <;> omega
      · intro v hv
        rcases mem_runs3 hv with h' | h' | h' <;> omega
    · by_cases h2 : x + y ≤ h
      · -- the ones sit entirely in the lower half
        have hw' : List.replicate x (0 : Int) ++ List.replicate y 1 ++
              List.replicate z 0 =
            (List.replicate x 0 ++ List.replicate y 1 ++
              List.replicate (h - x - y) 0) ++
            (List.replicate x 0 ++ List.replicate y 0 ++
              List.replicate (h - x - y) 0) := by
          simp only [List.append_assoc, rep_merge_assoc, rep_merge_tail]
          exact runs3_congr 0 1 0 rfl rfl (by omega)
        rw [hw', halfcleanW_runs h x y (h - x - y) (by omega),
          min_self, min_one_zero, max_self, max_one_zero]
        refine ⟨_, _, rfl, by simp; omega, by simp; omega,
          cycBlock_zero_runs _ _ _, Or.inl ⟨_, _, _, rfl⟩, ?_⟩
        refine allLe_of_bounds 0 ?_ ?_
        · intro u hu
          rcases mem_runs3 hu with h' | h' | h' <;> omega
        · intro v hv
          rcases mem_runs3 hv with h' | h' | h' <;> omega
      · by_cases h3 : y ≤ h
        · -- the one-run straddles the midpoint but fits in one half
          have hw' : List.replicate x (0 : Int) ++ List.replicate y 1 ++
                List.replicate z 0 =
              (List.replicate (x + y - h) 0 ++ List.replicate (h - y) 0 ++
                List.replicate (h - x) 1) ++
              (List.replicate (x + y - h) 1 ++ List.replicate (h - y) 0 ++
                List.replicate (h - x) 0) := by
            simp only [List.append_assoc, rep_merge_assoc, rep_merge_tail]
            exact runs3_congr 0 1 0 (by omega) (by omega) (by omega)
          rw [hw', halfcleanW_runs h (x + y - h) (h - y) (h - x) (by omega),
            min_self, min_zero_one, min_one_zero, max_self, max_zero_one,
            max_one_zero]
          refine ⟨_, _, rfl, by simp; omega, by simp; omega,
            cycBlock_zero_runs _ _ _, Or.inr ⟨_, _, _, rfl⟩, ?_⟩
          refine allLe_of_bounds 0 ?_ ?_
          · intro u hu
            rcases mem_runs3 hu with h' | h' | h' <;> omega
          · intro v hv
            rcases mem_runs3 hv with h' | h' | h' <;> omega
        · -- the one-run covers the midpoint on both sides
          have hw' : List.replicate x (0 : Int) ++ List.replicate y 1 ++
                List.replicate z 0 =
              (List.replicate x 0 ++ List.replicate (y - h) 1 ++
                List.replicate z 1) ++
              (List.replicate x 1 ++ List.replicate (y - h) 1 ++
                List.replicate z 0) := by
            simp only [List.append_assoc, rep_merge_assoc, rep_merge_tail]
            exact runs3_congr 0 1 0 rfl (by omega) rfl
          rw [hw', halfcleanW_runs h x (y - h) z (by omega),
            min_self, min_zero_one, min_one_zero, max_self, max_zero_one,
            max_one_zero]
          refine ⟨_, _, rfl, by simp; omega, by simp; omega,
            Or.inl ⟨_, _, _, rfl⟩, cycBlock_one_runs _ _ _, ?_⟩
          refine allLe_of_bounds 1 ?_ ?_
          · intro u hu
            rcases mem_runs3 hu with h' | h' | h' <;> omega
          · intro v hv
            rcases mem_runs3 hv with h' | h' | h' <;> omega
  · -- window `1^x 0^y 1^z`
    have hsum : x + y + z = 2 * h := by
      simp only [List.length_append, List.length_replicate] at hw
      omega
    by_cases h1 : h ≤ x
    · have hw' : List.replicate x (1 : Int) ++ List.replicate y 0 ++
            List.replicate z 1 =
          (List.replicate (x - h) 1 ++ List.replicate y 1 ++
            List.replicate z 1) ++
          (List.replicate (x - h) 1 ++ List.replicate y 0 ++
            List.replicate z 1) := by
        simp only [List.append_assoc, rep_merge_assoc, rep_merge_tail]
        exact runs3_congr 1 0 1 (by omega) rfl rfl
      rw [hw', halfcleanW_runs h (x - h) y z (by omega),
        min_self, min_one_zero, max_self, max_one_zero]
      refine ⟨_, _, rfl, by simp; omega, by simp; omega,
        Or.inr ⟨_, _, _, rfl⟩, cycBlock_one_runs _ _ _, ?_⟩
      refine allLe_of_bounds 1 ?_ ?_
      · intro u hu
        rcases mem_runs3 hu with h' | h' | h' <;> omega
      · intro v hv
        rcases mem_runs3 hv with h' | h' | h' <;> omega
    · by_cases h2 : x + y ≤ h
      · have hw' : List.replicate x (1 : Int) ++ List.replicate y 0 ++
              List.replicate z 1 =
            (List.replicate x 1 ++ List.replicate y 0 ++
              List.replicate (h - x - y) 1) ++
            (List.replicate x 1 ++ List.replicate y 1 ++
              List.replicate (h - x - y) 1) := by
          simp only [List.append_assoc, rep_merge_assoc, rep_merge_tail]
          exact runs3_congr 1 0 1 rfl rfl (by omega)
        rw [hw', halfcleanW_runs h x y (h - x - y) (by omega),
          min_self, min_zero_one, max_self, max_zero_one]
        refine ⟨_, _, rfl, by simp; omega, by simp; omega,
          Or.inr ⟨_, _, _, rfl⟩, cycBlock_one_runs _ _ _, ?_⟩
        refine allLe_of_bounds 1 ?_ ?_
        · intro u hu
          rcases mem_runs3 hu with h' | h' | h' <;> omega
        · intro v hv
          rcases mem_runs3 hv with h' | h' | h' <;> omega
      · by_cases h3 : y ≤ h
        · have hw' : List.replicate x (1 : Int) ++ List.replicate y 0 ++
                List.replicate z 1 =
              (List.replicate (x + y - h) 1 ++ List.replicate (h - y) 1 ++
                List.replicate (h - x) 0) ++
              (List.replicate (x + y - h) 0 ++ List.replicate (h - y) 1 ++
                List.replicate (h - x) 1) := by
            simp only [List.append_assoc, rep_merge_assoc, rep_merge_tail]
            exact runs3_congr 1 0 1 (by omega) (by omega) (by omega)
          rw [hw', halfcleanW_runs h (x + y - h) (h - y) (h - x) (by omega),
            min_self, min_zero_one, min_one_zero, max_self, max_zero_one,
            max_one_zero]
          refine ⟨_, _, rfl, by simp; omega, by simp; omega,
            Or.inl ⟨_, _, _, rfl⟩, cycBlock_one_runs _ _ _, ?_⟩
          refine allLe_of_bounds 1 ?_ ?_
          · intro u hu
            rcases mem_runs3 hu with h' | h' | h' <;> omega
          · intro v hv
            rcases mem_runs3 hv with h' | h' | h' <;> omega
        · have hw' : List.replicate x (1 : Int) ++ List.replicate y 0 ++
                List.replicate z 1 =
              (List.replicate x 1 ++ List.replicate (y - h) 0 ++
                List.replicate z 0) ++
              (List.replicate x 0 ++ List.replicate (y - h) 0 ++
                List.replicate z 1) := by
            simp only [List.append_assoc, rep_merge_assoc, rep_merge_tail]
            exact runs3_congr 1 0 1 rfl (by omega) rfl
          rw [hw', halfcleanW_runs h x (y - h) z (by omega),
            min_self, min_zero_one, min_one_zero, max_self, max_zero_one,
            max_one_zero]
          refine ⟨_, _, rfl, by simp; omega, by simp; omega,
            cycBlock_zero_runs _ _ _, Or.inr ⟨_, _, _, rfl⟩, ?_⟩
          refine allLe_of_bounds 0 ?_ ?_
          · intro u hu
            rcases mem_runs3 hu with h' | h' | h' <;> omega
          · intro v hv
            rcases mem_runs3 hv with h' | h' | h' <;> omega

/-! ## The blocks invariant: the half-clean rounds sort a buffer made of
dominated `CycBlock` windows. -/

theorem gapLoopF_one (fuel : Nat) (buf : List Int) :
    gapLoopF fuel 1 buf = buf := by
  cases fuel with
  | zero => rfl
  | succ fuel => simp [gapLoopF]

theorem sorted_flatten_singletons :
    ∀ bs : List (List Int), (∀ b ∈ bs, b.length = 1) → bs.Pairwise AllLe →
      List.Sorted (· ≤ ·) bs.flatten := by
  intro bs
  induction bs with
  | nil => intro _ _; exact List.sorted_nil
  | cons b bs ih =>
      intro hlen hpair
      obtain ⟨a, rfl⟩ : ∃ a, b = [a] := by
        have h1 := hlen b (by simp)
        cases b with
        | nil => simp at h1
        | cons x t =>
            cases t with
            | nil => exact ⟨x, rfl⟩
            | cons y u => simp at h1
      rcases List.pairwise_cons.mp hpair with ⟨hhead, htail⟩
      simp only [List.flatten_cons, List.singleton_append]
      rw [List.sorted_cons]
      constructor
      · intro y hy
        obtain ⟨c, hc, hyc⟩ := List.mem_flatten.mp hy
        exact hhead c hc a (by simp) y hyc
      · exact ih (fun c hc => hlen c (by simp [hc])) htail

/-- Half-cleaning a list of dominated `CycBlock` windows yields a list
of dominated `CycBlock` half-windows covering the same buffer. -/
theorem halfclean_blocks :
    ∀ (bs : List (List Int)) (h : Nat),
      (∀ b ∈ bs, b.length = 2 * h ∧ CycBlock b) → bs.Pairwise AllLe →
      ∃ cs : List (List Int),
        (bs.map (halfcleanW h)).flatten = cs.flatten ∧
        (∀ c ∈ cs, c.length = h ∧ CycBlock c) ∧ cs.Pairwise AllLe ∧
        (∀ x ∈ cs.flatten, ∃ b ∈ bs, x ∈ b) := by
  intro bs
  induction bs with
  | nil => intro h _ _; exact ⟨[], rfl, by simp, List.Pairwise.nil, by simp⟩
  | cons b bs ih =>
      intro h hblk hpair
      rcases List.pairwise_cons.mp hpair with ⟨hhead, htail⟩
      obtain ⟨hb_len, hb_blk⟩ := hblk b (by simp)
      obtain ⟨L, U, hLU, hLlen, hUlen, hLblk, hUblk, hALU⟩ :=
        halfcleanW_cycBlock h b hb_len hb_blk
      obtain ⟨cs, hcs, hcprops, hcpair, hcmem⟩ :=
        ih h (fun c hc => hblk c (by simp [hc])) htail
      have hLmem : ∀ x ∈ L, x ∈ b := by
        intro x hx
        exact halfcleanW_mem h b x (by rw [hLU]; exact List.mem_append_left _ hx)
      have hUmem : ∀ x ∈ U, x ∈ b := by
        intro x hx
        exact halfcleanW_mem h b x (by rw [hLU]; exact List.mem_append_right _ hx)
      have hcs_src : ∀ x ∈ cs.flatten, ∃ b' ∈ bs, x ∈ b' := hcmem
      refine ⟨L :: U :: cs, ?_, ?_, ?_, ?_⟩
      · simp only [List.map_cons, List.flatten_cons, hLU, hcs,
          List.append_assoc]
      · intro c hc
        rcases List.mem_cons.mp hc with rfl | hc
        · exact ⟨hLlen, hLblk⟩
        · rcases List.mem_cons.mp hc with rfl | hc
          · exact ⟨hUlen, hUblk⟩
          · exact hcprops c hc
      · -- pairwise dominance on the refined blocks
        have hdom : ∀ (V : List Int), (∀ x ∈ V, x ∈ b) →
            ∀ c ∈ cs, AllLe V c := by
          intro V hV c hc u hu v hv
          obtain ⟨b', hb', hvb'⟩ := hcs_src v (List.mem_flatten_of_mem hc hv)
          exact hhead b' hb' u (hV u hu) v hvb'
        refine List.pairwise_cons.mpr ⟨?_, List.pairwise_cons.mpr ⟨?_, hcpair⟩⟩
        · intro c hc
          rcases List.mem_cons.mp hc with rfl | hc
          · exact hALU
          · exact hdom L hLmem c hc
        · intro c hc
          exact hdom U hUmem c hc
      · intro x hx
        simp only [List.flatten_cons] at hx
        rcases List.mem_append.mp hx with hx | hx
        · exact ⟨b, by simp, hLmem x hx⟩
        · rcases List.mem_append.mp hx with hx | hx
          · exact ⟨b, by simp, hUmem x hx⟩
          · obtain ⟨b', hb', hxb'⟩ := hcs_src x hx
            exact ⟨b', by simp [hb'], hxb'⟩

/-- The half-clean loop sorts any buffer made of dominated `CycBlock`
windows of power-of-two width. -/
theorem gapLoop01_sorted :
    ∀ (j : Nat) (bs : List (List Int)),
      (∀ b ∈ bs, b.length = 2 ^ j ∧ CycBlock b) → bs.Pairwise AllLe →
      ∀ fuel, 2 ^ j ≤ fuel →
      List.Sorted (· ≤ ·) (gapLoopF fuel (2 ^ j) bs.flatten) := by
  intro j
  induction j with
  | zero =>
      intro bs hblk hpair fuel _
      rw [pow_zero, gapLoopF_one]
      exact sorted_flatten_singletons bs (fun b hb => (hblk b hb).1) hpair
  | succ j ih =>
      intro bs hblk hpair fuel hfuel
      have h2 : (2 : Nat) ^ (j + 1) = 2 * 2 ^ j := by rw [pow_succ']
      obtain ⟨f, rfl⟩ : ∃ f, fuel = f + 1 := by
        have : 0 < fuel := lt_of_lt_of_le (by positivity) hfuel
        exact ⟨fuel - 1, by omega⟩
      rw [gapLoopF, if_pos (by
        have : (1 : Nat) < 2 ^ (j + 1) := by
          rw [h2]
          have : 0 < 2 ^ j := by positivity
          omega
        exact this)]
      have hdiv : 2 ^ (j + 1) / 2 = 2 ^ j := pow_div_two (by omega)
      rw [hdiv]
      -- the round splits each window into two dominated half-windows
      have hjoin : gapRound (2 ^ (j + 1)) bs.flatten =
          ((bs.map (halfcleanW (2 ^ (j + 1) / 2))).flatten) := by
        rw [gapRound,
          chunksF_join bs bs.flatten.length (2 ^ (j + 1)) (by positivity)
            (fun b hb => (hblk b hb).1) le_rfl]
      obtain ⟨cs, hcs, hcprops, hcpair, _⟩ :=
        halfclean_blocks bs (2 ^ j)
          (fun b hb => ⟨by rw [(hblk b hb).1, h2], (hblk b hb).2⟩) hpair
      rw [hjoin, hdiv, hcs]
      exact ih cs hcprops hcpair f (by
        have h1 : (2 : Nat) ^ j ≤ 2 ^ (j + 1) - 1 := by
          rw [h2]
          have : 0 < 2 ^ j := by positivity
          omega
        omega)

/-! ## The cross phase on sorted zero-one inputs. -/

theorem runs2_congr (a b : Int) {i i' j j' : Nat} (h1 : i = i') (h2 : j = j') :
    List.replicate i a ++ List.replicate j b =
      List.replicate i' a ++ List.replicate j' b := by
  rw [h1, h2]

theorem zo_sorted_runs {l : List Int} (hz : ZO l)
    (hs : List.Sorted (· ≤ ·) l) :
    ∃ a b, l = List.replicate a 0 ++ List.replicate b 1 ∧ a + b = l.length := by
  induction l with
  | nil => exact ⟨0, 0, rfl, rfl⟩
  | cons x t ih =>
      obtain ⟨a, b, hruns, hab⟩ :=
        ih (fun y hy => hz y (by simp [hy])) (List.sorted_cons.mp hs).2
      rcases hz x (by simp) with rfl | rfl
      · exact ⟨a + 1, b, by rw [hruns]; rfl, by simp [hab]; omega⟩
      · have ha0 : a = 0 := by
          by_contra ha
          have h0 : (0 : Int) ∈ t := by
            rw [hruns]
            refine List.mem_append_left _ ?_
            exact List.mem_replicate.mpr ⟨ha, rfl⟩
          have := (List.sorted_cons.mp hs).1 0 h0
          omega
        subst ha0
        refine ⟨0, b + 1, ?_, by simp [hab]; omega⟩
        rw [hruns]
        simp [List.replicate_succ]

theorem zip_min_01 {a b c d m : Nat} (hab : a + b = m) (hcd : c + d = m) :
    CycBlock (List.zipWith min
      (List.replicate a 0 ++ List.replicate b 1)
      (List.replicate d 1 ++ List.replicate c 0)) := by
  by_cases h : a ≤ d
  · have hA : List.replicate a (0 : Int) ++ List.replicate b 1 =
        List.replicate a 0 ++ List.replicate (d - a) 1 ++
          List.replicate (m - d) 1 := by
      simp only [List.append_assoc, rep_merge_assoc, rep_merge_tail]
      exact runs2_congr 0 1 rfl (by omega)
    have hB : List.replicate d (1 : Int) ++ List.replicate c 0 =
        List.replicate a 1 ++ List.replicate (d - a) 1 ++
          List.replicate (m - d) 0 := by
      simp only [List.append_assoc, rep_merge_assoc, rep_merge_tail]
      exact runs2_congr 1 0 (by omega) (by omega)
    rw [hA, hB, zipWith_runs3, min_zero_one, min_self, min_one_zero]
    exact Or.inl ⟨_, _, _, rfl⟩
  · have hA : List.replicate a (0 : Int) ++ List.replicate b 1 =
        List.replicate d 0 ++ List.replicate (a - d) 0 ++
          List.replicate (m - a) 1 := by
      simp only [List.append_assoc, rep_merge_assoc, rep_merge_tail]
      exact runs2_congr 0 1 (by omega) (by omega)
    have hB : List.replicate d (1 : Int) ++ List.replicate c 0 =
        List.replicate d 1 ++ List.replicate (a - d) 0 ++
          List.replicate (m - a) 0 := by
      simp only [List.append_assoc, rep_merge_assoc, rep_merge_tail]
      exact runs2_congr 1 0 rfl (by omega)
    rw [hA, hB, zipWith_runs3, min_zero_one, min_self, min_one_zero]
    exact cycBlock_zero_runs _ _ _

theorem zip_max_01 {a b c d m : Nat} (hab : a + b = m) (hcd : c + d = m) :
    CycBlock (List.zipWith max
      (List.replicate b 1 ++ List.replicate a 0)
      (List.replicate c 0 ++ List.replicate d 1)) := by
  by_cases h : b ≤ c
  · have hA : List.replicate b (1 : Int) ++ List.replicate a 0 =
        List.replicate b 1 ++ List.replicate (c - b) 0 ++
          List.replicate (m - c) 0 := by
      simp only [List.append_assoc, rep_merge_assoc, rep_merge_tail]
      exact runs2_congr 1 0 rfl (by omega)
    have hB : List.replicate c (0 : Int) ++ List.replicate d 1 =
        List.replicate b 0 ++ List.replicate (c - b) 0 ++
          List.replicate (m - c) 1 := by
      simp only [List.append_assoc, rep_merge_assoc, rep_merge_tail]
      exact runs2_congr 0 1 (by omega) (by omega)
    rw [hA, hB, zipWith_runs3, max_one_zero, max_self, max_zero_one]
    exact Or.inr ⟨_, _, _, rfl⟩
  · have hA : List.replicate b (1 : Int) ++ List.replicate a 0 =
        List.replicate c 1 ++ List.replicate (b - c) 1 ++
          List.replicate (m - b) 0 := by
      simp only [List.append_assoc, rep_merge_assoc, rep_merge_tail]
      exact runs2_congr 1 0 (by omega) (by omega)
    have hB : List.replicate c (0 : Int) ++ List.replicate d 1 =
        List.replicate c 0 ++ List.replicate (b - c) 1 ++
          List.replicate (m - b) 1 := by
      simp only [List.append_assoc, rep_merge_assoc, rep_merge_tail]
      exact runs2_congr 0 1 rfl (by omega)
    rw [hA, hB, zipWith_runs3, max_one_zero, max_self, max_zero_one]
    exact cycBlock_one_runs _ _ _

/-! ## Dominance of the lower cross half over the upper cross half
(arbitrary sorted integer inputs). -/

theorem mem_zipWith_get (f : Int → Int → Int) :
    ∀ (A B : List Int) (x : Int), x ∈ List.zipWith f A B →
      ∃ i, ∃ (hA : i < A.length) (hB : i < B.length),
        x = f (A.get ⟨i, hA⟩) (B.get ⟨i, hB⟩) := by
  intro A
  induction A with
  | nil => simp
  | cons u A ih =>
      intro B x hx
      cases B with
      | nil => simp at hx
      | cons v B =>
          rcases List.mem_cons.mp hx with rfl | hx
          · exact ⟨0, by simp, by simp, rfl⟩
          · obtain ⟨i, hA, hB, rfl⟩ := ih B x hx
            exact ⟨i + 1, by simpa using hA, by simpa using hB, rfl⟩

theorem sorted_get_le {l : List Int} (hs : List.Sorted (· ≤ ·) l)
    {i j : Nat} (hi : i < l.length) (hj : j < l.length) (hij : i ≤ j) :
    l.get ⟨i, hi⟩ ≤ l.get ⟨j, hj⟩ := by
  rcases Nat.lt_or_ge i j with h | h
  · have := List.pairwise_iff_getElem.mp hs i j hi hj h
    simpa using this
  · have hji : i = j := by omega
    subst hji
    exact le_refl _

/-- Every element the cross phase puts into the lower half is at most
every element it puts into the upper half. -/
theorem crossPhase_allLe (l r : List Int) (hm : l.length = r.length)
    (hsl : List.Sorted (· ≤ ·) l) (hsr : List.Sorted (· ≤ ·) r) :
    AllLe (List.zipWith min l r.reverse) (List.zipWith max l.reverse r) := by
  intro u hu v hv
  obtain ⟨i, hiA, hiB, rfl⟩ := mem_zipWith_get min l r.reverse u hu
  obtain ⟨j, hjA, hjB, rfl⟩ := mem_zipWith_get max l.reverse r v hv
  have hm' : r.reverse.length = r.length := List.length_reverse r
  have hl' : l.reverse.length = l.length := List.length_reverse l
  have hrev_r : r.reverse.get ⟨i, hiB⟩ = r.get ⟨r.length - 1 - i, by omega⟩ :=
    List.get_reverse' r ⟨i, hiB⟩ (by omega)
  have hrev_l : l.reverse.get ⟨j, hjA⟩ = l.get ⟨l.length - 1 - j, by omega⟩ :=
    List.get_reverse' l ⟨j, hjA⟩ (by omega)
  rcases le_or_lt i (l.length - 1 - j) with hcase | hcase
  · -- compare through the left run
    have h1 : l.get ⟨i, hiA⟩ ≤ l.reverse.get ⟨j, hjA⟩ := by
      rw [hrev_l]
      exact sorted_get_le hsl hiA _ hcase
    exact le_trans (min_le_left _ _) (le_trans h1 (le_max_left _ _))
  · -- compare through the right run
    have h1 : r.reverse.get ⟨i, hiB⟩ ≤ r.get ⟨j, hjB⟩ := by
      rw [hrev_r]
      exact sorted_get_le hsr _ hjB (by omega)
    exact le_trans (min_le_right _ _) (le_trans h1 (le_max_right _ _))

/-! ## Monotone maps commute with the merge network (0-1 principle,
commuting half). -/

theorem map_zipWith_min {f : Int → Int} (hf : Monotone f) (a b : List Int) :
    List.zipWith min (a.map f) (b.map f) = (List.zipWith min a b).map f := by
  rw [List.zipWith_map, List.map_zipWith]
  have h : (fun x y => min (f x) (f y)) = fun x y : Int => f (min x y) := by
    funext x y
    rw [hf.map_min]
  rw [h]

theorem map_zipWith_max {f : Int → Int} (hf : Monotone f) (a b : List Int) :
    List.zipWith max (a.map f) (b.map f) = (List.zipWith max a b).map f := by
  rw [List.zipWith_map, List.map_zipWith]
  have h : (fun x y => max (f x) (f y)) = fun x y : Int => f (max x y) := by
    funext x y
    rw [hf.map_max]
  rw [h]

theorem map_crossPhase {f : Int → Int} (hf : Monotone f) (l r : List Int) :
    crossPhase (l.map f) (r.map f) = (crossPhase l r).map f := by
  rw [crossPhase, crossPhase, ← List.map_reverse, ← List.map_reverse,
    map_zipWith_min hf, map_zipWith_max hf, List.map_append]

theorem map_halfcleanW {f : Int → Int} (hf : Monotone f) (h : Nat)
    (w : List Int) : halfcleanW h (w.map f) = (halfcleanW h w).map f := by
  rw [halfcleanW, halfcleanW, ← List.map_take, ← List.map_drop,
    ← List.map_take, map_zipWith_min hf, map_zipWith_max hf,
    ← List.map_drop, List.map_append, List.map_append]

theorem map_chunksF (f : Int → Int) :
    ∀ (fuel g : Nat) (l : List Int),
      chunksF fuel g (l.map f) = (chunksF fuel g l).map (List.map f) := by
  intro fuel
  induction fuel with
  | zero =>
      intro g l
      cases l with
      | nil => rfl
      | cons x xs => rfl
  | succ fuel ih =>
      intro g l
      cases l with
      | nil => rfl
      | cons x xs =>
          have hcons : List.map f (x :: xs) = f x :: List.map f xs := rfl
          rw [hcons, chunksF, chunksF, List.map_cons, ← hcons,
            List.map_take, ← List.map_drop, ih]

theorem map_gapRound {f : Int → Int} (hf : Monotone f) (g : Nat)
    (buf : List Int) : gapRound g (buf.map f) = (gapRound g buf).map f := by
  rw [gapRound, gapRound, List.length_map, map_chunksF, List.map_flatten,
    List.map_map, List.map_map]
  congr 1
  apply List.map_congr_left
  intro c _
  exact map_halfcleanW hf (g / 2) c

theorem map_gapLoopF {f : Int → Int} (hf : Monotone f) :
    ∀ (fuel g : Nat) (buf : List Int),
      gapLoopF fuel g (buf.map f) = (gapLoopF fuel g buf).map f := by
  intro fuel
  induction fuel with
  | zero => intro g buf; rfl
  | succ fuel ih =>
      intro g buf
      rw [gapLoopF, gapLoopF]
      by_cases hg : 1 < g
      · rw [if_pos hg, if_pos hg, map_gapRound hf, ih]
      · rw [if_neg hg, if_neg hg]

/-! ## The 0-1 principle for the merge network. -/

theorem monotone_threshold (t : Int) :
    Monotone (fun x : Int => if t ≤ x then (1 : Int) else 0) := by
  intro a b hab
  dsimp only
  split_ifs with h1 h2
  · exact le_refl _
  · omega
  · omega
  · exact le_refl _

theorem zo_map_threshold (t : Int) (l : List Int) :
    ZO (l.map fun x => if t ≤ x then (1 : Int) else 0) := by
  intro x hx
  obtain ⟨y, _, rfl⟩ := List.mem_map.mp hx
  by_cases h : t ≤ y
  · exact Or.inr (by simp [h])
  · exact Or.inl (by simp [h])

theorem sorted_map_mono {f : Int → Int} (hf : Monotone f) {l : List Int}
    (hs : List.Sorted (· ≤ ·) l) : List.Sorted (· ≤ ·) (l.map f) :=
  List.pairwise_map.mpr (hs.imp fun h => hf h)

/-- Sortedness of the merge network on sorted zero-one inputs of equal
power-of-two length. -/
theorem merge01_sorted (k : Nat) (l r : List Int)
    (hzl : ZO l) (hzr : ZO r)
    (hsl : List.Sorted (· ≤ ·) l) (hsr : List.Sorted (· ≤ ·) r)
    (hl : l.length = 2 ^ k) (hr : r.length = 2 ^ k) :
    List.Sorted (· ≤ ·) (gapLoopF (2 ^ k) (2 ^ k) (crossPhase l r)) := by
  obtain ⟨a, b, hlruns, hab⟩ := zo_sorted_runs hzl hsl
  obtain ⟨c, d, hrruns, hcd⟩ := zo_sorted_runs hzr hsr
  have hrevr : r.reverse = List.replicate d 1 ++ List.replicate c 0 := by
    rw [hrruns]
    simp
  have hrevl : l.reverse = List.replicate b 1 ++ List.replicate a 0 := by
    rw [hlruns]
    simp
  have hB1blk : CycBlock (List.zipWith min l r.reverse) := by
    rw [hlruns, hrevr]
    exact zip_min_01 (m := 2 ^ k) (by omega) (by omega)
  have hB2blk : CycBlock (List.zipWith max l.reverse r) := by
    rw [hrevl, hrruns]
    exact zip_max_01 (m := 2 ^ k) (by omega) (by omega)
  have hB1len : (List.zipWith min l r.reverse).length = 2 ^ k := by
    simp only [List.length_zipWith, List.length_reverse]
    omega
  have hB2len : (List.zipWith max l.reverse r).length = 2 ^ k := by
    simp only [List.length_zipWith, List.length_reverse]
    omega
  have hall : AllLe (List.zipWith min l r.reverse)
      (List.zipWith max l.reverse r) :=
    crossPhase_allLe l r (by omega) hsl hsr
  have hflat : crossPhase l r =
      ([List.zipWith min l r.reverse, List.zipWith max l.reverse r] :
        List (List Int)).flatten := by
    simp [crossPhase]
  rw [hflat]
  refine gapLoop01_sorted k _ ?_ ?_ (2 ^ k) le_rfl
  · intro bb hb
    rcases List.mem_cons.mp hb with rfl | hb
    · exact ⟨hB1len, hB1blk⟩
    · rcases List.mem_cons.mp hb with rfl | hb
      · exact ⟨hB2len, hB2blk⟩
      · simp at hb
  · refine List.pairwise_cons.mpr ⟨?_, List.pairwise_cons.mpr ⟨?_, List.Pairwise.nil⟩⟩
    · intro c' hc'
      rcases List.mem_cons.mp hc' with rfl | hc'
      · exact hall
      · simp at hc'
    · intro c' hc'
      simp at hc'

/-- Sortedness of the merge network on arbitrary sorted integer inputs
of equal power-of-two length, by the 0-1 principle. -/
theorem merge_sorted (k : Nat) (l r : List Int)
    (hsl : List.Sorted (· ≤ ·) l) (hsr : List.Sorted (· ≤ ·) r)
    (hl : l.length = 2 ^ k) (hr : r.length = 2 ^ k) :
    List.Sorted (· ≤ ·) (gapLoopF (2 ^ k) (2 ^ k) (crossPhase l r)) := by
  by_contra hns
  have hns' : ¬ List.Pairwise (· ≤ ·)
      (gapLoopF (2 ^ k) (2 ^ k) (crossPhase l r)) := hns
  rw [List.pairwise_iff_getElem] at hns'
  push_neg at hns'
  obtain ⟨i, j, hi, hj, hij, hgt⟩ := hns'
  have hmono := monotone_threshold ((gapLoopF (2 ^ k) (2 ^ k)
    (crossPhase l r))[i])
  have hcomm : gapLoopF (2 ^ k) (2 ^ k)
      (crossPhase
        (l.map fun x => if (gapLoopF (2 ^ k) (2 ^ k)
          (crossPhase l r))[i] ≤ x then (1 : Int) else 0)
        (r.map fun x => if (gapLoopF (2 ^ k) (2 ^ k)
          (crossPhase l r))[i] ≤ x then (1 : Int) else 0)) =
      (gapLoopF (2 ^ k) (2 ^ k) (crossPhase l r)).map
        fun x => if (gapLoopF (2 ^ k) (2 ^ k)
          (crossPhase l r))[i] ≤ x then (1 : Int) else 0 := by
    rw [map_crossPhase hmono, map_gapLoopF hmono]
  have hs01 := merge01_sorted k _ _
    (zo_map_threshold _ l) (zo_map_threshold _ r)
    (sorted_map_mono hmono hsl) (sorted_map_mono hmono hsr)
    (by simpa using hl) (by simpa using hr)
  rw [hcomm] at hs01
  have hi' : i < ((gapLoopF (2 ^ k) (2 ^ k) (crossPhase l r)).map
      fun x => if (gapLoopF (2 ^ k) (2 ^ k)
        (crossPhase l r))[i] ≤ x then (1 : Int) else 0).length := by
    simpa using hi
  have hj' : j < ((gapLoopF (2 ^ k) (2 ^ k) (crossPhase l r)).map
      fun x => if (gapLoopF (2 ^ k) (2 ^ k)
        (crossPhase l r))[i] ≤ x then (1 : Int) else 0).length := by
    simpa using hj
  have hle := List.pairwise_iff_getElem.mp hs01 i j hi' hj' hij
  rw [List.getElem_map, List.getElem_map] at hle
  rw [if_pos (le_refl _), if_neg (by omega)] at hle
  omega

/-! ## Full `subsorter_task` contract on power-of-two inputs. -/

theorem crossPhase_length (l r : List Int) (h : l.length = r.length) :
    (crossPhase l r).length = 2 * l.length := by
  simp only [crossPhase, List.length_append, List.length_zipWith,
    List.length_reverse]
  omega

theorem subsorter_task_spec (k : Nat) (l r : List Int)
    (hsl : List.Sorted (· ≤ ·) l) (hsr : List.Sorted (· ≤ ·) r)
    (hl : l.length = 2 ^ k) (hr : r.length = 2 ^ k) :
    ∃ out, subsorter_task l r = some out ∧ List.Sorted (· ≤ ·) out ∧
      List.Perm out (l ++ r) ∧ out.length = 2 ^ (k + 1) := by
  have hlen : l.length = r.length := by omega
  have hperm : List.Perm (gapLoopF l.length l.length (crossPhase l r))
      (l ++ r) := by
    rw [hl]
    refine List.Perm.trans (gapLoopF_perm (2 ^ k) k _ ?_)
      (crossPhase_perm l r hlen)
    rw [crossPhase_length l r hlen, hl]
    exact ⟨2, by ring⟩
  rw [subsorter_task, if_pos hlen]
  refine ⟨_, rfl, ?_, hperm, ?_⟩
  · rw [hl]
    exact merge_sorted k l r hsl hsr hl hr
  · rw [hperm.length_eq]
    simp only [List.length_append]
    rw [hl, hr, pow_succ]
    ring

/-! ## Round 0 and the merge cascade of `top_level_task`. -/

theorem toPairs_spec :
    ∀ l : List Int, 2 ∣ l.length →
      ∃ ps, toPairs l = some ps ∧ ps.length = l.length / 2 ∧
        List.Perm
          ((ps.map fun p => ([min p.1 p.2, max p.1 p.2] : List Int)).flatten)
          l ∧
        ∀ b ∈ ps.map fun p => ([min p.1 p.2, max p.1 p.2] : List Int),
          List.Sorted (· ≤ ·) b ∧ b.length = 2 := by
  intro l
  induction l using toPairs.induct with
  | case1 =>
      intro _
      exact ⟨[], rfl, rfl, by simp, by simp⟩
  | case2 a =>
      intro hdvd
      simp only [List.length_singleton] at hdvd
      omega
  | case3 a b rest ih =>
      intro hdvd
      have hdvd' : 2 ∣ rest.length := by
        simp only [List.length_cons] at hdvd
        omega
      obtain ⟨ps, hps, hlen, hperm, hblocks⟩ := ih hdvd'
      refine ⟨(a, b) :: ps, ?_, ?_, ?_, ?_⟩
      · rw [toPairs, hps]
        rfl
      · simp only [List.length_cons]
        omega
      · simp only [List.map_cons, List.flatten_cons]
        have h1 : ([min a b, max a b] : List Int) ++
            (ps.map fun p => ([min p.1 p.2, max p.1 p.2] : List Int)).flatten =
            min a b :: max a b ::
              (ps.map fun p => ([min p.1 p.2, max p.1 p.2] : List Int)).flatten := rfl
        rw [h1]
        refine List.Perm.trans (minmax_cons_perm a b _) ?_
        exact ((hperm).cons b).cons a
      · intro c hc
        rcases List.mem_cons.mp hc with rfl | hc
        · refine ⟨?_, rfl⟩
          rw [List.sorted_cons]
          exact ⟨by intro y hy; simp at hy; rw [hy]; exact min_le_max,
            by simp⟩
        · exact hblocks c hc

theorem pairUp_spec :
    ∀ (bs : List (List Int)) (j : Nat), 2 ∣ bs.length →
      (∀ b ∈ bs, List.Sorted (· ≤ ·) b ∧ b.length = 2 ^ j) →
      ∃ cs, pairUp bs = some cs ∧ cs.length = bs.length / 2 ∧
        List.Perm cs.flatten bs.flatten ∧
        ∀ c ∈ cs, List.Sorted (· ≤ ·) c ∧ c.length = 2 ^ (j + 1) := by
  intro bs
  induction bs using pairUp.induct with
  | case1 =>
      intro j _ _
      exact ⟨[], rfl, rfl, by simp, by simp⟩
  | case2 a =>
      intro j hdvd _
      simp only [List.length_singleton] at hdvd
      omega
  | case3 a b rest ih =>
      intro j hdvd hblocks
      have hdvd' : 2 ∣ rest.length := by
        simp only [List.length_cons] at hdvd
        omega
      obtain ⟨ha_s, ha_l⟩ := hblocks a (by simp)
      obtain ⟨hb_s, hb_l⟩ := hblocks b (by simp)
      obtain ⟨s, hs_eq, hs_sorted, hs_perm, hs_len⟩ :=
        subsorter_task_spec j a b ha_s hb_s ha_l hb_l
      obtain ⟨cs, hcs, hcs_len, hcs_perm, hcs_blocks⟩ :=
        ih j hdvd' (fun c hc => hblocks c (by simp [hc]))
      refine ⟨s :: cs, ?_, ?_, ?_, ?_⟩
      · rw [pairUp, hs_eq, hcs]
        rfl
      · simp only [List.length_cons]
        omega
      · simp only [List.flatten_cons]
        rw [← List.append_assoc]
        exact List.Perm.append hs_perm hcs_perm
      · intro c hc
        rcases List.mem_cons.mp hc with rfl | hc
        · exact ⟨hs_sorted, hs_len⟩
        · exact hcs_blocks c hc

theorem mergeLoopF_spec :
    ∀ (d j : Nat) (bs : List (List Int)), 1 ≤ j →
      bs.length = 2 ^ d →
      (∀ b ∈ bs, List.Sorted (· ≤ ·) b ∧ b.length = 2 ^ j) →
      ∀ fuel, d ≤ fuel →
      ∃ s, mergeLoopF fuel (2 ^ (j + 1)) (2 ^ (j + d)) bs = some [s] ∧
        List.Sorted (· ≤ ·) s ∧ List.Perm s bs.flatten ∧
        s.length = 2 ^ (j + d) := by
  intro d
  induction d with
  | zero =>
      intro j bs _ hbs hblocks fuel _
      obtain ⟨b, rfl⟩ : ∃ b, bs = [b] := by
        cases bs with
        | nil => simp at hbs
        | cons b t =>
            cases t with
            | nil => exact ⟨b, rfl⟩
            | cons c u => simp at hbs
      obtain ⟨hb_s, hb_l⟩ := hblocks b (by simp)
      have hgap : ¬ 2 ^ (j + 1) ≤ 2 ^ (j + 0) := by
        simp only [Nat.add_zero]
        exact not_le.mpr (Nat.pow_lt_pow_right (by norm_num) (by omega))
      have hres : mergeLoopF fuel (2 ^ (j + 1)) (2 ^ (j + 0)) [b] = some [b] := by
        cases fuel with
        | zero => rfl
        | succ fuel => rw [mergeLoopF, if_neg hgap]
      exact ⟨b, hres, hb_s, by simp, by rw [hb_l, Nat.add_zero]⟩
  | succ d ih =>
      intro j bs hj hbs hblocks fuel hfuel
      obtain ⟨f, rfl⟩ : ∃ f, fuel = f + 1 := ⟨fuel - 1, by omega⟩
      have hgap : 2 ^ (j + 1) ≤ 2 ^ (j + (d + 1)) :=
        Nat.pow_le_pow_right (by norm_num) (by omega)
      obtain ⟨cs, hcs, hcs_len, hcs_perm, hcs_blocks⟩ :=
        pairUp_spec bs j (by rw [hbs]; exact ⟨2 ^ d, by ring⟩) hblocks
      have hcs_len' : cs.length = 2 ^ d := by
        rw [hcs_len, hbs, pow_succ]
        omega
      obtain ⟨s, hs_eq, hs_sorted, hs_perm, hs_len⟩ :=
        ih (j + 1) cs (by omega) hcs_len' hcs_blocks f (by omega)
      refine ⟨s, ?_, hs_sorted, hs_perm.trans hcs_perm, ?_⟩
      · rw [mergeLoopF, if_pos hgap, hcs]
        show mergeLoopF f (2 ^ (j + 1) * 2) (2 ^ (j + (d + 1))) cs = some [s]
        rw [show 2 ^ (j + 1) * 2 = 2 ^ (j + 1 + 1) from (pow_succ 2 (j + 1)).symm,
          show j + (d + 1) = j + 1 + d from by omega]
        exact hs_eq
      · rw [hs_len]
        congr 1
        omega

/-! ## Extracting the first `num_inputs` slots of the sorted padded
buffer. -/

/-- In a sorted permutation of `nums ++ replicate k M`, with every
element of `nums` at most `M`, the last `k` slots are exactly the `M`
padding and the first `|nums|` slots are a permutation of `nums`. -/
theorem sorted_perm_pad_suffix (M : Int) :
    ∀ (k : Nat) (s nums : List Int),
      List.Sorted (· ≤ ·) s →
      List.Perm s (nums ++ List.replicate k M) →
      (∀ x ∈ nums, x ≤ M) →
      s.drop nums.length = List.replicate k M ∧
        List.Perm (s.take nums.length) nums := by
  intro k
  induction k with
  | zero =>
      intro s nums hs hperm hb
      have hlen : s.length = nums.length := by
        have h := hperm.length_eq
        simpa using h
      constructor
      · rw [List.drop_eq_nil_of_le (by omega)]
        rfl
      · rw [List.take_of_length_le (by omega)]
        simpa using hperm
  | succ k ih =>
      intro s nums hs hperm hb
      have hlen : s.length = nums.length + (k + 1) := by
        have h := hperm.length_eq
        simpa using h
      have hsne : s ≠ [] := by
        intro h
        rw [h] at hlen
        simp at hlen
        omega
      have hMmem : M ∈ s := by
        refine hperm.mem_iff.mpr ?_
        refine List.mem_append_right _ ?_
        exact List.mem_replicate.mpr ⟨Nat.succ_ne_zero k, rfl⟩
      have hballs : ∀ x ∈ s, x ≤ M := by
        intro x hx
        rcases List.mem_append.mp (hperm.subset hx) with h | h
        · exact hb x h
        · rw [List.eq_of_mem_replicate h]
      have hlast : s.getLast hsne = M := by
        refine le_antisymm (hballs _ (List.getLast_mem hsne)) ?_
        obtain ⟨⟨i, hi⟩, hgi⟩ := List.mem_iff_get.mp hMmem
        have hle : s.get ⟨i, hi⟩ ≤ s.get ⟨s.length - 1, by omega⟩ :=
          sorted_get_le hs _ _ (by omega)
        rw [hgi] at hle
        rw [List.getLast_eq_getElem]
        exact le_trans hle (le_of_eq (by rw [List.get_eq_getElem]))
      have hsplit : s.dropLast ++ [M] = s := by
        rw [← hlast]
        exact List.dropLast_append_getLast hsne
      have hdl_sorted : List.Sorted (· ≤ ·) s.dropLast :=
        List.Pairwise.sublist (List.dropLast_sublist s) hs
      have hdl_perm : List.Perm s.dropLast (nums ++ List.replicate k M) := by
        refine (List.perm_append_right_iff [M]).mp ?_
        rw [hsplit]
        have hrhs : nums ++ List.replicate (k + 1) M =
            (nums ++ List.replicate k M) ++ [M] := by
          rw [List.replicate_succ' k M, List.append_assoc]
        rw [← hrhs]
        exact hperm
      obtain ⟨hdrop, htake⟩ := ih s.dropLast nums hdl_sorted hdl_perm hb
      have hdll : s.dropLast.length = nums.length + k := by
        rw [List.length_dropLast]
        omega
      constructor
      · conv_lhs => rw [← hsplit]
        rw [List.drop_append_of_le_length (by omega), hdrop,
          ← List.replicate_succ' k M]
      · conv_lhs => rw [← hsplit]
        rw [List.take_append_of_le_length (by omega)]
        exact htake

theorem padInput_length {nums : List Int} (h1 : 0 < nums.length)
    (h2 : nums.length ≤ 2 ^ 31) :
    (padInput nums).length = padLen nums.length := by
  have hge := padLen_ge h1 h2
  simp only [padInput, List.length_append, List.length_replicate]
  omega

theorem padInput_max {nums : List Int} (hmax : ∀ x ∈ nums, x ≤ intMax) :
    ∀ x ∈ padInput nums, x ≤ intMax := by
  intro x hx
  rcases List.mem_append.mp hx with h | h
  · exact hmax x h
  · rw [List.eq_of_mem_replicate h]

/-- `top_level_task` from the collected inputs onward: on at least two
in-range inputs it succeeds and prints a sorted permutation of the
inputs. -/
theorem sortTop_spec (nums : List Int) (h2 : 2 ≤ nums.length)
    (hbound : nums.length ≤ 2 ^ 30) (hmax : ∀ x ∈ nums, x ≤ intMax) :
    ∃ out, sortTop nums = some out ∧ List.Sorted (· ≤ ·) out ∧
      List.Perm out nums := by
  have h31 : nums.length ≤ 2 ^ 31 := by
    have h : (2 : Nat) ^ 30 ≤ 2 ^ 31 := by norm_num
    omega
  have hpos : 0 < nums.length := by omega
  have hc : padLen nums.length = 2 ^ Nat.clog 2 nums.length :=
    padLen_eq_pow hpos h31
  have hc1 : 1 ≤ Nat.clog 2 nums.length := Nat.clog_pos (by norm_num) h2
  have hplen : (padInput nums).length = 2 ^ Nat.clog 2 nums.length := by
    rw [padInput_length hpos h31, hc]
  obtain ⟨ps, hps, hpslen, hpsperm, hpsblocks⟩ :=
    toPairs_spec (padInput nums) (by
      rw [hplen]
      refine ⟨2 ^ (Nat.clog 2 nums.length - 1), ?_⟩
      rw [← pow_succ']
      congr 1
      omega)
  have hblockcount :
      (ps.map fun p => ([min p.1 p.2, max p.1 p.2] : List Int)).length =
        2 ^ (Nat.clog 2 nums.length - 1) := by
    rw [List.length_map, hpslen, hplen]
    have hsplit : 2 ^ Nat.clog 2 nums.length =
        2 * 2 ^ (Nat.clog 2 nums.length - 1) := by
      rw [← pow_succ']
      congr 1
      omega
    omega
  have hblocks2 :
      ∀ b ∈ ps.map fun p => ([min p.1 p.2, max p.1 p.2] : List Int),
        List.Sorted (· ≤ ·) b ∧ b.length = 2 ^ 1 := by
    intro b hb
    exact ⟨(hpsblocks b hb).1, by rw [(hpsblocks b hb).2, pow_one]⟩
  obtain ⟨s, hs_eq, hs_sorted, hs_perm, hs_len⟩ :=
    mergeLoopF_spec (Nat.clog 2 nums.length - 1) 1 _ (le_refl 1)
      hblockcount hblocks2 (2 ^ Nat.clog 2 nums.length)
      (le_trans (by omega) (Nat.lt_two_pow (Nat.clog 2 nums.length)).le)
  have hexp : 1 + (Nat.clog 2 nums.length - 1) = Nat.clog 2 nums.length := by
    omega
  rw [hexp] at hs_eq hs_len
  have hs_eq' : mergeLoopF (padLen nums.length) 4 (padLen nums.length)
      (ps.map fun p => ([min p.1 p.2, max p.1 p.2] : List Int)) = some [s] := by
    rw [hc]
    have h4 : (4 : Nat) = 2 ^ (1 + 1) := by norm_num
    rw [h4]
    exact hs_eq
  -- the sorted buffer is a permutation of the padded input
  have hs_perm' : List.Perm s (padInput nums) := hs_perm.trans hpsperm
  -- peel off the sentinel padding
  obtain ⟨hdrop, htake⟩ :=
    sorted_perm_pad_suffix intMax (padLen nums.length - nums.length) s nums
      hs_sorted (by rw [← padInput]; exact hs_perm') hmax
  refine ⟨s.take nums.length, ?_, ?_, htake⟩
  · -- evaluate `sortTop`
    rw [sortTop, if_neg (by omega)]
    split
    · rename_i heq
      rw [hps] at heq
      exact absurd heq (by simp)
    · rename_i pairs heq
      rw [hps] at heq
      injection heq with heq
      subst heq
      split
      · rename_i heq2
        rw [hs_eq'] at heq2
        exact absurd heq2 (by simp)
      · rename_i final heq2
        rw [hs_eq'] at heq2
        injection heq2 with heq2
        subst heq2
        show (if s.length = padLen nums.length then some (s.take nums.length)
          else none) = some (s.take nums.length)
        rw [if_pos (by rw [hs_len, hc])]
  · exact List.Pairwise.sublist (List.take_sublist _ _) hs_sorted

/-! ## Shape of the cross-phase halves on arbitrary sorted inputs
(claim C8): each half is bitonic, not the whole buffer. -/

theorem upDown_nil : UpDown ([] : List Int) :=
  ⟨0, by simp, List.sorted_nil, List.sorted_nil⟩

theorem upDown_of_sorted_ge {t : List Int} (ht : List.Sorted (· ≥ ·) t) :
    UpDown t :=
  ⟨0, by simp, List.sorted_nil, ht⟩

theorem upDown_cons_head {t : List Int} (z : Int) (hud : UpDown t)
    (hz : ∀ z', t.head? = some z' → z ≤ z') : UpDown (z :: t) := by
  obtain ⟨p, hp, hta, htd⟩ := hud
  simp only [List.mem_range] at hp
  cases p with
  | zero =>
      refine ⟨1, by simp, List.sorted_singleton z, ?_⟩
      simpa using htd
  | succ q =>
      obtain ⟨w, t', rfl⟩ : ∃ w t', t = w :: t' := by
        cases t with
        | nil => simp at hp
        | cons w t' => exact ⟨w, t', rfl⟩
      have hzw : z ≤ w := hz w rfl
      have htake_eq : (w :: t').take (q + 1) = w :: t'.take q := rfl
      rw [htake_eq, List.sorted_cons] at hta
      refine ⟨q + 2, ?_, ?_, ?_⟩
      · simp only [List.mem_range, List.length_cons]
        simp only [List.length_cons] at hp
        omega
      · have h2 : (z :: w :: t').take (q + 2) = z :: w :: t'.take q := rfl
        rw [h2, List.sorted_cons]
        constructor
        · intro y hy
          rcases List.mem_cons.mp hy with rfl | hy
          · exact hzw
          · exact le_trans hzw (hta.1 y hy)
        · rw [List.sorted_cons]
          exact hta
      · have h3 : (z :: w :: t').drop (q + 2) = (w :: t').drop (q + 1) := rfl
        rw [h3]
        exact htd

theorem zip_min_dominated :
    ∀ (l d : List Int), (∀ a ∈ l, ∀ b ∈ d, b ≤ a) →
      List.zipWith min l d = d.take l.length := by
  intro l
  induction l with
  | nil => intro d _; simp
  | cons x l ih =>
      intro d hdom
      cases d with
      | nil => simp
      | cons y d' =>
          have hxy : y ≤ x := hdom x (by simp) y (by simp)
          simp only [List.zipWith_cons_cons, List.length_cons]
          rw [min_eq_right hxy,
            ih d' (fun a ha b hb => hdom a (by simp [ha]) b (by simp [hb]))]
          rfl

/-- Pointwise minimum of a non-decreasing and a non-increasing sequence
rises and then falls. -/
theorem upDown_zip_min :
    ∀ (l d : List Int), List.Sorted (· ≤ ·) l → List.Sorted (· ≥ ·) d →
      UpDown (List.zipWith min l d) := by
  intro l
  induction l with
  | nil => intro d _ _; exact upDown_nil
  | cons x l' ih =>
      intro d hsl hsd
      cases d with
      | nil => exact upDown_nil
      | cons y d' =>
          simp only [List.zipWith_cons_cons]
          rcases le_or_lt x y with hxy | hxy
          · rw [min_eq_left hxy]
            cases d' with
            | nil =>
                simp only [List.zipWith_nil_right]
                exact ⟨1, by simp, List.sorted_singleton x, List.sorted_nil⟩
            | cons e d'' =>
                rcases le_or_lt x e with hxe | hxe
                · -- still in the rising part: cons onto the tail shape
                  refine upDown_cons_head x
                    (ih (e :: d'') (List.sorted_cons.mp hsl).2
                      (List.sorted_cons.mp hsd).2) ?_
                  intro z' hz'
                  rcases l' with _ | ⟨u, l''⟩
                  · simp at hz'
                  · simp only [List.zipWith_cons_cons, List.head?_cons,
                      Option.some.injEq] at hz'
                    have hxu : x ≤ u := (List.sorted_cons.mp hsl).1 u (by simp)
                    rw [← hz']
                    exact le_min hxu hxe
                · -- crossed right after the head: the tail is a falling run
                  have hdom : ∀ a ∈ l', ∀ b ∈ e :: d'', b ≤ a := by
                    intro a ha b hb
                    have hxa : x ≤ a := (List.sorted_cons.mp hsl).1 a ha
                    have hbe : b ≤ e := by
                      rcases List.mem_cons.mp hb with rfl | hb
                      · exact le_refl b
                      · exact (List.sorted_cons.mp
                          (List.sorted_cons.mp hsd).2).1 b hb
                    omega
                  rw [zip_min_dominated l' (e :: d'') hdom]
                  refine ⟨1, by simp, List.sorted_singleton x, ?_⟩
                  have hst : List.Sorted (· ≥ ·) ((e :: d'').take l'.length) :=
                    List.Pairwise.sublist (List.take_sublist _ _)
                      (List.sorted_cons.mp hsd).2
                  simpa using hst
          · -- crossed at the head: everything falls
            have hdom : ∀ a ∈ l', ∀ b ∈ d', b ≤ a := by
              intro a ha b hb
              have hxa : x ≤ a := (List.sorted_cons.mp hsl).1 a ha
              have hby : b ≤ y := (List.sorted_cons.mp hsd).1 b hb
              omega
            rw [min_eq_right (le_of_lt hxy), zip_min_dominated l' d' hdom]
            refine upDown_of_sorted_ge ?_
            rw [List.sorted_cons]
            constructor
            · intro b hb
              exact (List.sorted_cons.mp hsd).1 b (List.mem_of_mem_take hb)
            · exact List.Pairwise.sublist (List.take_sublist _ _)
                (List.sorted_cons.mp hsd).2

theorem neg_sorted_le {l : List Int} (h : List.Sorted (· ≥ ·) l) :
    List.Sorted (· ≤ ·) (l.map fun x => -x) :=
  List.pairwise_map.mpr (h.imp fun hab => by omega)

theorem neg_sorted_ge {l : List Int} (h : List.Sorted (· ≤ ·) l) :
    List.Sorted (· ≥ ·) (l.map fun x => -x) :=
  List.pairwise_map.mpr (h.imp fun hab => by omega)

theorem zip_max_eq_neg (dl r : List Int) :
    List.zipWith max dl r =
      (List.zipWith min (dl.map fun x => -x) (r.map fun x => -x)).map
        fun x => -x := by
  rw [List.zipWith_map, List.map_zipWith]
  have h : (fun a b : Int => -(min (-a) (-b))) = fun a b : Int => max a b := by
    funext a b
    rw [min_neg_neg, neg_neg]
  rw [h]

theorem upDown_bitonic {l : List Int} (h : UpDown l) : Bitonic l :=
  ⟨0, by simp, by rw [List.rotate_zero]; exact h⟩

theorem bitonic_of_downUp {a b : List Int} (ha : List.Sorted (· ≥ ·) a)
    (hb : List.Sorted (· ≤ ·) b) : Bitonic (a ++ b) := by
  refine ⟨a.length, by simp; omega, ?_⟩
  rw [List.rotate_eq_drop_append_take (by simp), List.drop_left, List.take_left]
  refine ⟨b.length, by simp; omega, ?_, ?_⟩
  · rw [List.take_left]
    exact hb
  · rw [List.drop_left]
    exact ha

theorem bitonic_neg_upDown {w : List Int} (h : UpDown w) :
    Bitonic (w.map fun x => -x) := by
  obtain ⟨p, hp, hta, htd⟩ := h
  have hsplit : w.map (fun x => -x) =
      ((w.take p).map fun x => -x) ++ ((w.drop p).map fun x => -x) := by
    rw [← List.map_append, List.take_append_drop]
  rw [hsplit]
  exact bitonic_of_downUp (neg_sorted_ge hta) (neg_sorted_le htd)

/-- Pointwise maximum of a non-increasing and a non-decreasing sequence
is bitonic (falls then rises, a rotation of rise-then-fall). -/
theorem bitonic_zip_max (dl r : List Int) (hdl : List.Sorted (· ≥ ·) dl)
    (hr : List.Sorted (· ≤ ·) r) : Bitonic (List.zipWith max dl r) := by
  rw [zip_max_eq_neg]
  exact bitonic_neg_upDown
    (upDown_zip_min _ _ (neg_sorted_le hdl) (neg_sorted_ge hr))

theorem sorted_ge_reverse {l : List Int} (h : List.Sorted (· ≤ ·) l) :
    List.Sorted (· ≥ ·) l.reverse :=
  List.pairwise_reverse.mpr (h.imp fun hab => hab)

/-- The amended C8 invariant: after the cross phase each half of the
working buffer is bitonic and the lower half is dominated by the upper
half. -/
theorem crossPhase_halves (l r : List Int) (hm : l.length = r.length)
    (hsl : List.Sorted (· ≤ ·) l) (hsr : List.Sorted (· ≤ ·) r) :
    crossPhase l r =
      List.zipWith min l r.reverse ++ List.zipWith max l.reverse r ∧
    (List.zipWith min l r.reverse).length = l.length ∧
    (List.zipWith max l.reverse r).length = l.length ∧
    Bitonic (List.zipWith min l r.reverse) ∧
    Bitonic (List.zipWith max l.reverse r) ∧
    AllLe (List.zipWith min l r.reverse) (List.zipWith max l.reverse r) := by
  refine ⟨rfl, ?_, ?_, ?_, ?_, ?_⟩
  · simp only [List.length_zipWith, List.length_reverse]
    omega
  · simp only [List.length_zipWith, List.length_reverse]
    omega
  · exact upDown_bitonic (upDown_zip_min l r.reverse hsl (sorted_ge_reverse hsr))
  · exact bitonic_zip_max l.reverse r (sorted_ge_reverse hsl) hsr
  · exact crossPhase_allLe l r hm hsl hsr

/-! ## Argument-handling lemmas. -/

theorem takeWhile_isDigit_nil {u : List Char}
    (hu : ∀ c ∈ u, c.isDigit = false) : u.takeWhile Char.isDigit = [] := by
  cases u with
  | nil => rfl
  | cons c v => simp [List.takeWhile_cons, hu c (by simp)]

/-- `atoi` on a token with no digit characters returns 0. -/
theorem atoi_no_digit {s : List Char} (hs : ∀ c ∈ s, c.isDigit = false) :
    atoi s = 0 := by
  have hsub : ∀ c ∈ s.dropWhile isSpaceChar, c.isDigit = false := fun c hc =>
    hs c ((s.dropWhile_sublist isSpaceChar).mem hc)
  rw [atoi]
  split
  · rename_i u heq
    have hu : ∀ x ∈ u, x.isDigit = false := by
      intro x hx
      exact hsub x (by rw [heq]; exact List.mem_cons_of_mem _ hx)
    rw [takeWhile_isDigit_nil hu]
    simp [digitsVal]
  · rename_i u heq
    have hu : ∀ x ∈ u, x.isDigit = false := by
      intro x hx
      exact hsub x (by rw [heq]; exact List.mem_cons_of_mem _ hx)
    rw [takeWhile_isDigit_nil hu]
    simp [digitsVal]
  · rw [takeWhile_isDigit_nil hsub]
    simp [digitsVal]

/-- The input loop is flag-pair skipping followed by `atoi`, exactly as
the spec describes the CLI contract. -/
theorem parseInputs_eq_spec :
    ∀ argv, parseInputs argv = (specKeptTokens argv).map atoi := by
  intro argv
  induction argv using parseInputs.induct with
  | case1 => simp [parseInputs, specKeptTokens]
  | case2 a h =>
      rw [parseInputs, specKeptTokens, if_pos h, if_pos h]
      simp [specKeptTokens]
  | case3 a h =>
      rw [parseInputs, specKeptTokens, if_neg h, if_neg h]
      simp [specKeptTokens]
  | case4 a b rest h ih =>
      rw [parseInputs, specKeptTokens, if_pos h, if_pos h, List.tail_cons]
      exact ih
  | case5 a b rest h ih =>
      rw [parseInputs, specKeptTokens, if_neg h, if_neg h, List.map_cons]
      exact congrArg _ ih


/-! ## Codec size agreement. -/

theorem serialize_length (s : List Int) :
    (legion_serialize s).length = legion_buffer_size s := by
  rw [legion_serialize, List.length_append, natLE_length,
    flatMap_intLE_length, legion_buffer_size_eq]

theorem deserialize_consumed (s : List Int) (hlen : s.length < 2 ^ 64) :
    (legion_deserialize (legion_serialize s)).2 = legion_buffer_size s := by
  have hnl : (natLE 8 s.length).length = 8 := natLE_length 8 _
  have htake : (legion_serialize s).take 8 = natLE 8 s.length := by
    rw [legion_serialize, List.take_append_of_le_length (by omega)]
    exact List.take_of_length_le (by omega)
  have hval : leVal ((legion_serialize s).take 8) = s.length := by
    rw [htake, leVal_natLE]
    have h8 : (256 : Nat) ^ 8 = 2 ^ 64 := by norm_num
    rw [h8]
    exact Nat.mod_eq_of_lt hlen
  show 8 + 4 * leVal ((legion_serialize s).take 8) = legion_buffer_size s
  rw [hval, legion_buffer_size_eq]

/-! # Claim theorems. -/

/-- C1 (counterexample): the claim quantifies over every non-empty list,
but the top-level sort aborts on the non-empty input `[5]`: one is
already a power of two, so no sentinel is appended, round 0 reads
`nums[1]` out of bounds and the final `sorted.size() == num_total`
assertion cannot hold. -/
theorem claim_C1_counterexample :
    sortTop [5] = none ∧ ([5] : List Int) ≠ [] := by
  exact ⟨rfl, by simp⟩

/-- C1 (amended): for every list of at least two machine integers (C
`int`s, so each at most `INT_MAX`, with the count small enough that
`num_total` does not overflow), the top-level sort returns a permutation
of the input in non-decreasing order. -/
theorem claim_C1_sort_sorted_perm (nums : List Int) (h2 : 2 ≤ nums.length)
    (hbound : nums.length ≤ 2 ^ 30) (hmax : ∀ x ∈ nums, x ≤ intMax) :
    ∃ out, sortTop nums = some out ∧ List.Sorted (· ≤ ·) out ∧
      List.Perm out nums :=
  sortTop_spec nums h2 hbound hmax

/-- C1 (witness). -/
theorem claim_C1_witness :
    ∃ out, sortTop [3, 1, 4, 1] = some out ∧ List.Sorted (· ≤ ·) out ∧
      List.Perm out [3, 1, 4, 1] :=
  claim_C1_sort_sorted_perm [3, 1, 4, 1] (by decide) (by decide) (by decide)

/-- C2 (counterexample): two sorted sequences of equal length `3` whose
merge output `[0, 0, 1, 1, 2, 1]` is not sorted — the half-clean loop
`gap = 3, 1` never compares the out-of-order tail. -/
theorem claim_C2_counterexample :
    List.Sorted (· ≤ ·) [0, 0, 2] ∧ List.Sorted (· ≤ ·) [1, 1, 1] ∧
    ([0, 0, 2] : List Int).length = ([1, 1, 1] : List Int).length ∧
    subsorter_task [0, 0, 2] [1, 1, 1] = some [0, 0, 1, 1, 2, 1] ∧
    ¬ List.Sorted (· ≤ ·) [0, 0, 1, 1, 2, 1] :=
  ⟨by decide, by decide, rfl, rfl, by decide⟩

/-- C2 (amended): for every pair of non-decreasingly sorted integer
sequences of equal length `m` where `m` is a power of two, the merge
task returns a sequence of length `2m` that is sorted in non-decreasing
order and is a permutation (multiset union) of the two inputs. -/
theorem claim_C2_merge_correct (k : Nat) (l r : List Int)
    (hsl : List.Sorted (· ≤ ·) l) (hsr : List.Sorted (· ≤ ·) r)
    (hl : l.length = 2 ^ k) (hr : r.length = 2 ^ k) :
    ∃ out, subsorter_task l r = some out ∧ out.length = 2 * 2 ^ k ∧
      List.Sorted (· ≤ ·) out ∧ List.Perm out (l ++ r) := by
  obtain ⟨out, h1, h2, h3, h4⟩ := subsorter_task_spec k l r hsl hsr hl hr
  refine ⟨out, h1, ?_, h2, h3⟩
  rw [h4, pow_succ]
  ring

/-- C2 (witness). -/
theorem claim_C2_witness :
    ∃ out, subsorter_task [1, 3] [0, 2] = some out ∧ out.length = 2 * 2 ^ 1 ∧
      List.Sorted (· ≤ ·) out ∧ List.Perm out ([1, 3] ++ [0, 2]) :=
  claim_C2_merge_correct 1 [1, 3] [0, 2] (by decide) (by decide) (by decide)
    (by decide)

/-- C3: deserializing the bytes produced by serializing any sequence of
C `int`s (up to `size_t` capacity) restores the same sequence — same
length, same elements, same order — including the empty sequence and
sequences containing the sentinel `INT_MAX`. -/
theorem claim_C3_roundtrip (s : List Int)
    (hrange : ∀ x ∈ s, -2 ^ 31 ≤ x ∧ x < 2 ^ 31) (hlen : s.length < 2 ^ 64) :
    (legion_deserialize (legion_serialize s)).1 = s := by
  rw [deserialize_serialize s hrange hlen]

/-- C3 (witness), a sequence containing the sentinel. -/
theorem claim_C3_witness :
    (legion_deserialize (legion_serialize [5, intMax, -3])).1 =
      [5, intMax, -3] :=
  claim_C3_roundtrip [5, intMax, -3] (by decide) (by decide)

/-- C4: for `N ≥ 1` raw inputs (within `int` range), the padding
normalizer produces a sequence of length `nextPow2(N)` — a power of two,
at least `N`, and no larger than any power of two `≥ N` — whose slot `i`
is the raw input for `i < N` and the sentinel `INT_MAX` for `i ≥ N`;
when `N` is already a power of two no padding is added. -/
theorem claim_C4_padding (nums : List Int) (h1 : 1 ≤ nums.length)
    (h2 : nums.length ≤ 2 ^ 30) :
    padLen nums.length = nextPow2Spec nums.length ∧
    (∃ k, padLen nums.length = 2 ^ k) ∧
    nums.length ≤ padLen nums.length ∧
    (∀ j, nums.length ≤ 2 ^ j → padLen nums.length ≤ 2 ^ j) ∧
    (padInput nums).length = padLen nums.length ∧
    (∀ i, i < nums.length → (padInput nums)[i]? = nums[i]?) ∧
    (∀ i, nums.length ≤ i → i < padLen nums.length →
      (padInput nums)[i]? = some intMax) ∧
    ((∃ k, nums.length = 2 ^ k) → padInput nums = nums) := by
  have h31 : nums.length ≤ 2 ^ 31 := by
    have h : (2 : Nat) ^ 30 ≤ 2 ^ 31 := by norm_num
    omega
  have hpos : 0 < nums.length := h1
  have hpow := padLen_eq_pow hpos h31
  refine ⟨hpow, ⟨_, hpow⟩, padLen_ge hpos h31,
    fun j hj => padLen_le_pow hpos h31 hj, padInput_length hpos h31,
    ?_, ?_, ?_⟩
  · intro i hi
    rw [padInput, List.getElem?_append, if_pos hi]
  · intro i hge hlt
    rw [padInput, List.getElem?_append_right (by omega),
      List.getElem?_replicate, if_pos (by omega)]
  · rintro ⟨k, hk⟩
    have hself : padLen nums.length = nums.length := by
      rw [hk]
      exact padLen_pow_self (by rw [← hk]; omega)
    rw [padInput, hself]
    simp

/-- C4 (witness), with `N = 3` padded to length 4. -/
theorem claim_C4_witness :
    padLen ([3, 1, 2] : List Int).length =
      nextPow2Spec ([3, 1, 2] : List Int).length ∧
    (∃ k, padLen ([3, 1, 2] : List Int).length = 2 ^ k) ∧
    ([3, 1, 2] : List Int).length ≤ padLen ([3, 1, 2] : List Int).length ∧
    (∀ j, ([3, 1, 2] : List Int).length ≤ 2 ^ j →
      padLen ([3, 1, 2] : List Int).length ≤ 2 ^ j) ∧
    (padInput [3, 1, 2]).length = padLen ([3, 1, 2] : List Int).length ∧
    (∀ i, i < ([3, 1, 2] : List Int).length →
      (padInput [3, 1, 2])[i]? = ([3, 1, 2] : List Int)[i]?) ∧
    (∀ i, ([3, 1, 2] : List Int).length ≤ i →
      i < padLen ([3, 1, 2] : List Int).length →
      (padInput [3, 1, 2])[i]? = some intMax) ∧
    ((∃ k, ([3, 1, 2] : List Int).length = 2 ^ k) →
      padInput [3, 1, 2] = [3, 1, 2]) :=
  claim_C4_padding [3, 1, 2] (by decide) (by decide)

/-- C5: for every pair of integers, including equal ones, the comparator
task accepts exactly two arguments and returns the two-element sequence
`(min, max)` — a sorted permutation of its input pair. -/
theorem claim_C5_comparator (a b : Int) :
    ∃ out, single_swap_task [a, b] = some out ∧ out = [min a b, max a b] ∧
      List.Sorted (· ≤ ·) out ∧ List.Perm out [a, b] := by
  refine ⟨[min a b, max a b], rfl, rfl, ?_, minmax_cons_perm a b []⟩
  rw [List.sorted_cons]
  constructor
  · intro y hy
    simp only [List.mem_singleton] at hy
    rw [hy]
    exact min_le_max
  · exact List.sorted_singleton _

/-- C6: the spec expects `[5]` to be padded to `[5, MAX]` and sorted to
`[5]`, but the code computes `nextPow2(1) = 1`, adds no padding, and the
run aborts (out-of-bounds read of `nums[1]` in round 0, and the final
assertion `sorted.size() == num_total` is violated: the single swap
returns 2 elements while `num_total = 1`). -/
theorem claim_C6_single_element_aborts :
    padLen 1 = 1 ∧ padInput [5] = [5] ∧ sortTop [5] = none :=
  ⟨rfl, rfl, rfl⟩

/-- C7 (counterexample): the non-numeric argument `"abc"` is not
rejected; `atoi` turns it into 0 and the program sorts `[0, 5]`
normally, so no `InvalidInput` error is reported at validation time. -/
theorem claim_C7_counterexample :
    top_level_task [['a', 'b', 'c'], ['5']] = some [0, 5] := rfl

/-- C7 (amended): the input loop performs no numeric validation: a
non-flag token with no digit characters is parsed by `atoi` as the
integer 0 and included in the data to sort; the program proceeds rather
than reporting an error. -/
theorem claim_C7_no_numeric_validation (s : List Char)
    (rest : List (List Char)) (hnd : ∀ c ∈ s, c.isDigit = false)
    (hnf : isFlag s = false) :
    parseInputs (s :: rest) = 0 :: parseInputs rest := by
  have h0 : atoi s = 0 := atoi_no_digit hnd
  cases rest with
  | nil =>
      simp only [parseInputs]
      rw [if_neg (by simp [hnf]), h0]
  | cons b rest' =>
      simp only [parseInputs]
      rw [if_neg (by simp [hnf]), h0]

/-- C7 (witness). -/
theorem claim_C7_witness :
    parseInputs [['x'], ['7']] = 0 :: parseInputs [['7']] :=
  claim_C7_no_numeric_validation ['x'] [['7']] (by decide) (by decide)

/-- C8 (counterexample): for the sorted equal-length runs `[2,5,9,10]`
and `[1,6,7,8]` the cross phase produces `[2,5,6,1,10,9,7,8]`, which is
not bitonic (not a rotation of a rise-then-fall sequence): the
reassembled whole buffer has four direction changes. -/
theorem claim_C8_counterexample :
    List.Sorted (· ≤ ·) [2, 5, 9, 10] ∧ List.Sorted (· ≤ ·) [1, 6, 7, 8] ∧
    ([2, 5, 9, 10] : List Int).length = ([1, 6, 7, 8] : List Int).length ∧
    crossPhase [2, 5, 9, 10] [1, 6, 7, 8] = [2, 5, 6, 1, 10, 9, 7, 8] ∧
    ¬ Bitonic [2, 5, 6, 1, 10, 9, 7, 8] :=
  ⟨by decide, by decide, rfl, rfl, by decide⟩

/-- C8 (amended): after the cross phase the working buffer splits into
two halves of length `m`, each of which is bitonic, with every element
of the lower half at most every element of the upper half (this, not
bitonicity of the whole buffer, is the invariant the half-clean rounds
rely on). -/
theorem claim_C8_cross_bitonic_halves (l r : List Int)
    (hm : l.length = r.length) (hsl : List.Sorted (· ≤ ·) l)
    (hsr : List.Sorted (· ≤ ·) r) :
    ∃ B1 B2, crossPhase l r = B1 ++ B2 ∧ B1.length = l.length ∧
      B2.length = l.length ∧ Bitonic B1 ∧ Bitonic B2 ∧ AllLe B1 B2 := by
  obtain ⟨heq, h1, h2, h3, h4, h5⟩ := crossPhase_halves l r hm hsl hsr
  exact ⟨_, _, heq, h1, h2, h3, h4, h5⟩

/-- C8 (witness). -/
theorem claim_C8_witness :
    ∃ B1 B2, crossPhase [0, 1] [2, 3] = B1 ++ B2 ∧
      B1.length = ([0, 1] : List Int).length ∧
      B2.length = ([0, 1] : List Int).length ∧ Bitonic B1 ∧ Bitonic B2 ∧
      AllLe B1 B2 :=
  claim_C8_cross_bitonic_halves [0, 1] [2, 3] (by decide) (by decide)
    (by decide)

/-- C9: the input loop skips every token beginning with `'-'` together
with the one token immediately following it, and feeds all remaining
tokens through `atoi` in order — exactly the spec's description of the
CLI contract. -/
theorem claim_C9_flag_pairs_skipped (argv : List (List Char)) :
    parseInputs argv = (specKeptTokens argv).map atoi :=
  parseInputs_eq_spec argv

/-- C10: the three codec functions agree on the encoded size
`sizeof(size_t) + |s| * sizeof(int)`: the serializer writes exactly
`legion_buffer_size s` bytes (and returns that count), and the
deserializer consumes and returns exactly the same count. -/
theorem claim_C10_codec_sizes (s : List Int) (hlen : s.length < 2 ^ 64) :
    (legion_serialize s).length = legion_buffer_size s ∧
    (legion_deserialize (legion_serialize s)).2 = legion_buffer_size s :=
  ⟨serialize_length s, deserialize_consumed s hlen⟩

/-- C10 (witness). -/
theorem claim_C10_witness :
    (legion_serialize [7, -1]).length = legion_buffer_size [7, -1] ∧
    (legion_deserialize (legion_serialize [7, -1])).2 =
      legion_buffer_size [7, -1] :=
  claim_C10_codec_sizes [7, -1] (by decide)
